import Mathlib

set_option maxRecDepth 8000

/-!
Verification of the tofufy Route53 export pipeline (src/tofufy/cli.py).

Strings are modelled as lists of characters (`LC`).  The Python functions of
the source file are translated one by one into executable Lean definitions;
bounded recursion that Python expresses through regular-expression scanning is
realised with an explicit fuel argument equal to the input length, which is
always sufficient because every step consumes at least one character.
-/

abbrev LC := List Char

def str (s : String) : LC := s.toList

/-! ## Character classes -/

def isAsciiLetter (c : Char) : Bool := ('A' ≤ c && c ≤ 'Z') || ('a' ≤ c && c ≤ 'z')

def isAsciiDigit (c : Char) : Bool := '0' ≤ c && c ≤ '9'

def isAlnumChar (c : Char) : Bool := isAsciiLetter c || isAsciiDigit c

def isIdentStart (c : Char) : Bool := isAsciiLetter c || c = '_'

def isIdentChar (c : Char) : Bool := isAlnumChar c || c = '_'

/-- Characters stripped by Python str.rstrip with no argument (str.isspace). -/
def pyIsSpace (c : Char) : Bool :=
  c = ' ' || c = '\t' || c = '\n' || c = '\x0b' || c = '\x0c' || c = '\r' ||
  c = '\x1c' || c = '\x1d' || c = '\x1e' || c = '\x1f' || c = '\x85' || c = '\xa0' ||
  c.toNat = 0x1680 || (0x2000 ≤ c.toNat && c.toNat ≤ 0x200a) ||
  c.toNat = 0x2028 || c.toNat = 0x2029 || c.toNat = 0x202f || c.toNat = 0x205f ||
  c.toNat = 0x3000

/-- Python s.rstrip(): drop trailing whitespace. -/
def rstrip (s : LC) : LC := (s.reverse.dropWhile pyIsSpace).reverse

/-- Python s.strip(t) for a single strip character t. -/
def stripChar (t : Char) (s : LC) : LC :=
  ((s.dropWhile (· = t)).reverse.dropWhile (· = t)).reverse

/-- Python s.rstrip("."). -/
def rstripDots (s : LC) : LC := (s.reverse.dropWhile (· = '.')).reverse

/-! ## Prefix testing and first occurrence of a substring -/

/-- Python s.startswith(p), on explicit character lists. -/
def isPref : LC → LC → Bool
  | [], _ => true
  | _ :: _, [] => false
  | a :: as, b :: bs => a == b && isPref as bs

/-- Index of the first occurrence of p as a substring of s (regex scanning). -/
def firstOcc (p : LC) : LC → Option Nat
  | [] => if isPref p [] then some 0 else none
  | c :: s => if isPref p (c :: s) then some 0 else (firstOcc p s).map (· + 1)

/-! ## Lexicographic string order (Python code-point comparison) -/

def charsLt : LC → LC → Bool
  | [], [] => false
  | [], _ :: _ => true
  | _ :: _, [] => false
  | a :: as, b :: bs => if a = b then charsLt as bs else decide (a < b)

def charsLe (x y : LC) : Bool := x == y || charsLt x y

/-- Lexicographic combination used by Python tuple comparison: compare the
first component as a string, break ties with a second comparison. -/
def lexPair (le₂ : β → β → Bool) (x y : LC × β) : Bool :=
  charsLt x.1 y.1 || (x.1 == y.1 && le₂ x.2 y.2)

/-! ## Stable insertion sort (model of Python sorted, which is stable) -/

def insertLe (le : α → α → Bool) (x : α) : List α → List α
  | [] => [x]
  | y :: ys => if le x y then x :: y :: ys else y :: insertLe le x ys

def sortLe (le : α → α → Bool) : List α → List α
  | [] => []
  | x :: xs => insertLe le x (sortLe le xs)

/-! ## Decimal rendering of naturals (Python str(n) / format n:02d) -/

def digitChar (n : Nat) : Char :=
  match n with
  | 0 => '0' | 1 => '1' | 2 => '2' | 3 => '3' | 4 => '4'
  | 5 => '5' | 6 => '6' | 7 => '7' | 8 => '8' | _ => '9'

def natToCharsAux : Nat → Nat → LC
  | 0, _ => []
  | fuel + 1, n =>
    if n < 10 then [digitChar n]
    else natToCharsAux fuel (n / 10) ++ [digitChar (n % 10)]

/-- Decimal representation of a natural number, as Python str(n). -/
def natToChars (n : Nat) : LC := natToCharsAux (n + 1) n

/-- Python f-string format with 02d: zero-pad to at least two digits. -/
def pad2 (n : Nat) : LC := if n < 10 then '0' :: natToChars n else natToChars n

def digitsVal (s : LC) : Nat := s.foldl (fun a c => a * 10 + (c.toNat - 48)) 0

/-- Collision suffix computed by collect_zone_records: empty for the first
record with a key base, an underscore plus the 02d-formatted count after. -/
def suffixFor (cnt : Nat) : LC := if cnt = 1 then [] else '_' :: pad2 cnt

/-! ## Python str.replace (all non-overlapping occurrences, left to right) -/

def replaceAllAux (p r : LC) : Nat → LC → LC
  | _, [] => []
  | 0, s => s
  | fuel + 1, c :: s =>
    if isPref p (c :: s) && !p.isEmpty then
      r ++ replaceAllAux p r fuel ((c :: s).drop p.length)
    else
      c :: replaceAllAux p r fuel s

/-- Python value.replace(p, r). -/
def replaceAll (p r s : LC) : LC := replaceAllAux p r s.length s

/-! ## escape_percent_signs (cli.py lines 220-223): regex percent-not-
followed-by-percent replaced by a double percent -/

def escPercentCore : LC → LC
  | [] => []
  | ['%'] => ['%', '%']
  | '%' :: c :: rest =>
    if c = '%' then '%' :: escPercentCore (c :: rest)
    else '%' :: '%' :: escPercentCore (c :: rest)
  | c :: rest => c :: escPercentCore rest

/-- escape_percent_signs from cli.py, including its early-return guard. -/
def escape_percent_signs (value : LC) : LC :=
  if value = [] ∨ '%' ∉ value then value else escPercentCore value

/-! ## Python "\n".join of a list of lines -/

def joinNl : List LC → LC
  | [] => []
  | [l] => l
  | l :: l2 :: ls => l ++ '\n' :: joinNl (l2 :: ls)

/-! ## Python json.dumps string escaping (default ensure_ascii encoder) -/

def hexDigit (n : Nat) : Char :=
  match n with
  | 0 => '0' | 1 => '1' | 2 => '2' | 3 => '3' | 4 => '4'
  | 5 => '5' | 6 => '6' | 7 => '7' | 8 => '8' | 9 => '9'
  | 10 => 'a' | 11 => 'b' | 12 => 'c' | 13 => 'd' | 14 => 'e' | _ => 'f'

def uEscape (n : Nat) : LC :=
  ['\\', 'u', hexDigit (n / 4096 % 16), hexDigit (n / 256 % 16),
   hexDigit (n / 16 % 16), hexDigit (n % 16)]

def jsonEscapeChar (c : Char) : LC :=
  if c = '"' then ['\\', '"']
  else if c = '\\' then ['\\', '\\']
  else if c = '\n' then ['\\', 'n']
  else if c = '\r' then ['\\', 'r']
  else if c = '\t' then ['\\', 't']
  else if c = '\x08' then ['\\', 'b']
  else if c = '\x0c' then ['\\', 'f']
  else if c.toNat < 0x20 then uEscape c.toNat
  else if c.toNat ≤ 0x7e then [c]
  else if c.toNat < 0x10000 then uEscape c.toNat
  else
    uEscape (0xd800 + (c.toNat - 0x10000) / 0x400) ++
      uEscape (0xdc00 + (c.toNat - 0x10000) % 0x400)

/-- Python json.dumps on a string: double quotes around the escaped body. -/
def jsonDumps (s : LC) : LC := '"' :: (s.map jsonEscapeChar).join ++ ['"']

/-! ## Identifier shape (cli.py line 38, IDENTIFIER_PATTERN) -/

/-- The pattern a bare identifier is meant to have: a letter or underscore
followed by letters, digits or underscores. -/
def identifierShape (s : LC) : Bool :=
  match s with
  | [] => false
  | c :: rest => isIdentStart c && rest.all isIdentChar

/-- Python re.match of the anchored pattern with a dollar anchor: the dollar
also matches just before one trailing newline, a well-known property of
Python regular expressions. -/
def pyMatchIdentifier (s : LC) : Bool :=
  identifierShape s ||
    (match s.getLast? with
     | some '\n' => identifierShape s.dropLast
     | _ => false)

/-! ## Name and identifier utilities (cli.py lines 198-243, 568-572) -/

/-- compute_relative_name (cli.py lines 198-208). -/
def compute_relative_name (record_name zone_name : LC) : LC :=
  let name := rstripDots record_name
  let zone := rstripDots zone_name
  if name = [] ∨ name = zone then []
  else if zone ≠ [] ∧ isPref ('.' :: zone).reverse name.reverse then
    name.take (name.length - (zone.length + 1))
  else name

/-- sanitize_subdomain (cli.py lines 211-217). -/
def sanitizeRuns : Bool → LC → LC
  | _, [] => []
  | inRun, c :: rest =>
    if isAlnumChar c then c :: sanitizeRuns false rest
    else if inRun then sanitizeRuns true rest
    else '_' :: sanitizeRuns true rest

def sanitize_subdomain (value : LC) : LC :=
  if value = [] then str "root"
  else
    let replaced := replaceAll (str "\\052") (str "star") (replaceAll (str "*") (str "star") value)
    let sanitized := stripChar '_' (sanitizeRuns false (replaced.map Char.toLower))
    if sanitized = [] then str "root" else sanitized

def startsWithDigit : LC → Bool
  | [] => false
  | c :: _ => isAsciiDigit c

/-- sanitize_identifier (cli.py lines 568-572). -/
def sanitize_identifier (value : LC) : LC :=
  let sanitized := value.map (fun c => if isIdentChar c then c else '_')
  if sanitized.isEmpty || startsWithDigit sanitized then '_' :: sanitized else sanitized

/-- build_record_key (cli.py lines 240-243): returns
(key base, relative name, subdomain). -/
def build_record_key (record_name zone_name record_type : LC) : LC × LC × LC :=
  let relative_name := compute_relative_name record_name zone_name
  let subdomain := sanitize_subdomain relative_name
  (record_type.map Char.toLower ++ '_' :: subdomain, relative_name, subdomain)

/-! ## Data model: raw provider records (boto3 dict shapes used by cli.py).
A key that is absent from the provider dict is modelled as none; the provider
never sends an explicit null for these keys.  ResourceRecords is the list of
entry Value strings; the empty list models both a missing and an empty key,
which the source treats identically (truthiness). -/

structure RawAlias where
  DNSName : Option LC
  HostedZoneId : Option LC
  EvaluateTargetHealth : Option Bool
deriving DecidableEq

/-- Python truthiness of the alias dict: it is non-empty. -/
def RawAlias.truthy (a : RawAlias) : Bool :=
  a.DNSName.isSome || a.HostedZoneId.isSome || a.EvaluateTargetHealth.isSome

structure RawGeo where
  ContinentCode : Option LC
  CountryCode : Option LC
  SubdivisionCode : Option LC
deriving DecidableEq

/-- Python truthiness of the geolocation dict: it is non-empty. -/
def RawGeo.truthy (g : RawGeo) : Bool :=
  g.ContinentCode.isSome || g.CountryCode.isSome || g.SubdivisionCode.isSome

structure RawRecord where
  Name : Option LC
  Type_ : Option LC
  ResourceRecords : List LC
  AliasTarget : Option RawAlias
  GeoLocation : Option RawGeo
  TTL : Option Int
  SetIdentifier : Option LC
  HealthCheckId : Option LC
  Failover : Option LC
  TrafficPolicyInstanceId : Option LC
  MultiValueAnswer : Option Bool
  Region : Option LC
  Weight : Option Int
deriving DecidableEq

structure AliasNorm where
  name : LC
  zone_id : Option LC
  evaluate_target_health : Option Bool
deriving DecidableEq

/-- The canonical record produced by normalize_record.  The geo_location
field is the dict literal the source builds: when present it always carries
all three keys, each mapped to the raw value or a null placeholder. -/
structure NormalizedRecord where
  key_base : LC
  relative_name : LC
  subdomain : LC
  full_name : LC
  type : LC
  records : List LC
  alias_ : Option AliasNorm
  geo_location : Option (List (LC × Option LC))
  ttl : Option Int
  set_identifier : Option LC
  health_check_id : Option LC
  failover : Option LC
  traffic_policy_instance_id : Option LC
  multi_value_answer : Option Bool
  region : Option LC
  weight : Option Int
  import_id : LC
deriving DecidableEq, Inhabited

/-- Global default skip set (cli.py line 17). -/
def SKIP_RECORD_TYPES : List LC := [str "NS", str "SOA"]

/-- Global default skippable-for-import set (cli.py line 18). -/
def SKIPPABLE_IMPORT_TYPES : List LC := [str "A", str "CNAME"]

def headIs (c : Char) : LC → Bool
  | [] => false
  | d :: _ => d == c

def lastIs (c : Char) (s : LC) : Bool := headIs c s.reverse

/-- Python sep.join(parts) for a single-character separator. -/
def joinWith (sep : Char) : List LC → LC
  | [] => []
  | [l] => l
  | l :: l2 :: ls => l ++ sep :: joinWith sep (l2 :: ls)

/-- normalize_record (cli.py lines 246-314). -/
def normalize_record (record : RawRecord) (zone_name zone_id : LC) :
    Option NormalizedRecord :=
  let record_type := (record.Type_.getD []).map Char.toUpper
  if record_type ∈ SKIP_RECORD_TYPES then none
  else
    let raw_name := rstripDots (record.Name.getD [])
    let full_name := replaceAll (str "\\052") (str "*") raw_name
    let kb := build_record_key full_name zone_name record_type
    let values := record.ResourceRecords.map (fun v =>
      let v2 :=
        if (record_type == str "TXT" || record_type == str "SPF") &&
            headIs '"' v && lastIs '"' v then
          replaceAll (str "\\\"") (str "\"") (v.drop 1).dropLast
        else v
      escape_percent_signs v2)
    let aliasVal := match record.AliasTarget with
      | some a =>
        if a.truthy then
          some { name := replaceAll (str "\\052") (str "*") (rstripDots (a.DNSName.getD []))
                 zone_id := a.HostedZoneId
                 evaluate_target_health := a.EvaluateTargetHealth }
        else none
      | none => none
    let geo := match record.GeoLocation with
      | some g =>
        if g.truthy then
          some [(str "continent_code", g.ContinentCode),
                (str "country_code", g.CountryCode),
                (str "subdivision_code", g.SubdivisionCode)]
        else none
      | none => none
    let record_name_for_id := if full_name = [] then zone_name else full_name
    let base_parts := [zone_id, record_name_for_id, record_type]
    let parts := match record.SetIdentifier with
      | some s => if s = [] then base_parts else base_parts ++ [s]
      | none => base_parts
    some
      { key_base := kb.1
        relative_name := kb.2.1
        subdomain := kb.2.2
        full_name := full_name
        type := record_type
        records := values
        alias_ := aliasVal
        geo_location := geo
        ttl := record.TTL
        set_identifier := record.SetIdentifier
        health_check_id := record.HealthCheckId
        failover := record.Failover
        traffic_policy_instance_id := record.TrafficPolicyInstanceId
        multi_value_answer := record.MultiValueAnswer
        region := record.Region
        weight := record.Weight
        import_id := joinWith '_' parts }

/-! ## Attribute trees and the HCL literal encoder (cli.py lines 372-379) -/

inductive HScalar
  | bool (b : Bool)
  | null
  | int (n : Int)
  | strv (s : LC)
deriving DecidableEq

inductive HValue
  | scalar (v : HScalar)
  | list (xs : List HValue)
  | map (entries : List (LC × HValue))

def hstr (s : LC) : HValue := .scalar (.strv s)

/-- Python str(n) for an integer. -/
def intToChars (n : Int) : LC :=
  if n < 0 then '-' :: natToChars n.natAbs else natToChars n.toNat

/-- to_hcl_literal (cli.py lines 372-379); the isinstance dispatch of the
source maps onto the scalar constructors, with the bool test first. -/
def to_hcl_literal : HScalar → LC
  | .bool b => if b then str "true" else str "false"
  | .null => str "null"
  | .int n => intToChars n
  | .strv s => jsonDumps s

/-- format_name from render_attribute_block (cli.py lines 385-390): an empty
name renders as nothing, a name accepted by re.match of IDENTIFIER_PATTERN
renders bare, anything else is quoted with json.dumps. -/
def format_name (name : LC) : LC :=
  if name = [] then []
  else if pyMatchIdentifier name then name
  else jsonDumps name

/-! ## build_record_attributes (cli.py lines 317-369), split into the
segments the source appends one after another -/

def ttlPart (r : NormalizedRecord) : List (LC × HValue) :=
  match r.ttl with
  | some t => [(str "ttl", .scalar (.int t))]
  | none => []

def recordsPart (r : NormalizedRecord) : List (LC × HValue) :=
  if r.records = [] then [] else [(str "records", .list (r.records.map hstr))]

def aliasPart (r : NormalizedRecord) : List (LC × HValue) :=
  match r.alias_ with
  | some a =>
    [(str "alias", .map (
      (if a.name = [] then [] else [(str "name", hstr a.name)]) ++
      (match a.zone_id with
       | some z => if z = [] then [] else [(str "zone_id", hstr z)]
       | none => []) ++
      (match a.evaluate_target_health with
       | some b => [(str "evaluate_target_health", .scalar (.bool b))]
       | none => [])))]
  | none => []

def setIdPart (r : NormalizedRecord) : List (LC × HValue) :=
  match r.set_identifier with
  | some v => [(str "set_identifier", hstr v)]
  | none => []

def healthPart (r : NormalizedRecord) : List (LC × HValue) :=
  match r.health_check_id with
  | some v => [(str "health_check_id", hstr v)]
  | none => []

def failoverPart (r : NormalizedRecord) : List (LC × HValue) :=
  match r.failover with
  | some v => [(str "failover", hstr v)]
  | none => []

def tpiiPart (r : NormalizedRecord) : List (LC × HValue) :=
  match r.traffic_policy_instance_id with
  | some v => [(str "traffic_policy_instance_id", hstr v)]
  | none => []

def mvaPart (r : NormalizedRecord) : List (LC × HValue) :=
  match r.multi_value_answer with
  | some b => [(str "multivalue_answer", .scalar (.bool b))]
  | none => []

def latencyPart (r : NormalizedRecord) : List (LC × HValue) :=
  match r.region with
  | some g =>
    if g = [] then []
    else [(str "latency_routing_policy", .map [(str "region", hstr g)])]
  | none => []

def weightPart (r : NormalizedRecord) : List (LC × HValue) :=
  match r.weight with
  | some w => [(str "weighted_routing_policy", .map [(str "weight", .scalar (.int w))])]
  | none => []

/-- Python geo_location.get(key) on the stored dict. -/
def dictGetOpt (d : List (LC × Option LC)) (k : LC) : Option LC :=
  match d with
  | [] => none
  | (k2, v) :: rest => if k2 = k then v else dictGetOpt rest k

/-- One iteration of the geolocation projection loop: emit the renamed key
when the looked-up value is truthy. -/
def geoSeg (tgt : LC) (o : Option LC) : List (LC × HValue) :=
  match o with
  | some v => if v = [] then [] else [(tgt, hstr v)]
  | none => []

/-- The inner geolocation projection loop: renamed keys, truthy values only,
in the insertion order of the mapping dict. -/
def geoProj (d : List (LC × Option LC)) : List (LC × HValue) :=
  geoSeg (str "continent") (dictGetOpt d (str "continent_code")) ++
  geoSeg (str "country") (dictGetOpt d (str "country_code")) ++
  geoSeg (str "subdivision") (dictGetOpt d (str "subdivision_code"))

def geoPart (r : NormalizedRecord) : List (LC × HValue) :=
  let g := geoProj (r.geo_location.getD [])
  if g.isEmpty then [] else [(str "geolocation_routing_policy", .map g)]

/-- build_record_attributes: ordered key/value pairs, matching the insertion
order of the OrderedDict in the source (all keys inserted are distinct). -/
def build_record_attributes (r : NormalizedRecord) : List (LC × HValue) :=
  [(str "full_name", hstr r.full_name), (str "type", hstr r.type)] ++
  ttlPart r ++ recordsPart r ++ aliasPart r ++
  setIdPart r ++ healthPart r ++ failoverPart r ++ tpiiPart r ++
  mvaPart r ++ latencyPart r ++ weightPart r ++ geoPart r

/-! ## Key assigner: filtering, canonical sort, collision suffixes
(collect_zone_records, cli.py lines 575-619) -/

/-- A compiled hostname pattern is abstracted by its search function; the
source compiles the user expressions with re.IGNORECASE, so the matcher is
case-insensitive, but only its boolean verdict matters here. -/
structure HostPattern where
  search : LC → Bool

/-- The filtering step of the collection loop (cli.py lines 588-597): the
exclude patterns drop a record only when its type is in the skippable set,
the include patterns apply to every record type. -/
def keepRecord (skippable : List LC) (skip_patterns include_patterns : List HostPattern)
    (n : NormalizedRecord) : Bool :=
  if !skip_patterns.isEmpty && skippable.contains n.type &&
      skip_patterns.any (fun p => p.search n.full_name) then false
  else if !include_patterns.isEmpty &&
      !(include_patterns.any (fun p => p.search n.full_name)) then false
  else true

/-- The Python sort key (key_base, set_identifier or empty, full_name). -/
def recSortKey (r : NormalizedRecord) : LC × LC × LC :=
  (r.key_base, r.set_identifier.getD [], r.full_name)

/-- Python tuple comparison of the sort keys. -/
def recordLe (a b : NormalizedRecord) : Bool :=
  lexPair (lexPair charsLe) (recSortKey a) (recSortKey b)

def lookupCount (counts : List (LC × Nat)) (b : LC) : Nat :=
  match counts with
  | [] => 0
  | (k, v) :: rest => if k = b then v else lookupCount rest b

def setCount (counts : List (LC × Nat)) (b : LC) (n : Nat) : List (LC × Nat) :=
  match counts with
  | [] => [(b, n)]
  | (k, v) :: rest => if k = b then (k, n) :: rest else (k, v) :: setCount rest b n

/-- The key-assignment loop of collect_zone_records (cli.py lines 610-617):
walk the sorted records, count occurrences of each key base, and append the
02d-formatted count from the second occurrence on. -/
def assignAux : List (LC × Nat) → List NormalizedRecord → List (LC × NormalizedRecord)
  | _, [] => []
  | counts, r :: rs =>
    let c := lookupCount counts r.key_base + 1
    (r.key_base ++ suffixFor c, r) :: assignAux (setCount counts r.key_base c) rs

def assignKeys (rs : List NormalizedRecord) : List (LC × NormalizedRecord) :=
  assignAux [] rs

/-- collect_zone_records (cli.py lines 575-619) on an already fetched list of
raw records.  The result carries the zone key, the sanitized local-variable
name, the filename stem, and the assigned (record key, record) pairs in
sorted order; the import entries are exactly the assigned pairs tagged with
the zone key and import id. -/
def collect_zone_records (raws : List RawRecord) (zone_id zone_name : LC)
    (private_zone : Bool) (skip_patterns include_patterns : List HostPattern) :
    LC × LC × LC × List (LC × NormalizedRecord) × List (LC × LC × LC) :=
  let records := (raws.filterMap (fun raw => normalize_record raw zone_name zone_id)).filter
    (keepRecord SKIPPABLE_IMPORT_TYPES skip_patterns include_patterns)
  let zone_key := if private_zone then zone_name ++ str "_private" else zone_name
  let local_var := sanitize_identifier (str "zone_records_" ++ zone_key)
  let filename_domain := (zone_name.map (fun c => if c = '.' then '-' else c)) ++
    (if private_zone then str "-private" else [])
  let assigned := assignKeys (sortLe recordLe records)
  (zone_key, local_var, filename_domain, assigned,
   assigned.map (fun kr => (zone_key, kr.1, kr.2.import_id)))

/-! ## build_vpc_map (cli.py lines 496-517) -/

structure RawVpc where
  vpc_id : Option LC
  vpc_region : Option LC
deriving DecidableEq

def vpcSortKey (v : RawVpc) : LC × LC := (v.vpc_region.getD [], v.vpc_id.getD [])

def vpcLe (a b : RawVpc) : Bool := lexPair charsLe (vpcSortKey a) (vpcSortKey b)

/-- The identifier source text region_or_unknown + underscore + id_or_index,
with Python or-truthiness on both components. -/
def vpcIdentSource (idx : Nat) (v : RawVpc) : LC :=
  (match v.vpc_region with
   | some g => if g = [] then str "unknown" else g
   | none => str "unknown") ++ ['_'] ++
  (match v.vpc_id with
   | some i => if i = [] then natToChars idx else i
   | none => natToChars idx)

/-- The per-vpc attribute block: id and region when truthy. -/
def vpcBlock (v : RawVpc) : List (LC × HValue) :=
  (match v.vpc_id with
   | some i => if i = [] then [] else [(str "vpc_id", hstr i)]
   | none => []) ++
  (match v.vpc_region with
   | some g => if g = [] then [] else [(str "vpc_region", hstr g)]
   | none => [])

def buildVpcEntries : Nat → List RawVpc → List (LC × List (LC × HValue))
  | _, [] => []
  | idx, v :: rest =>
    (if sanitize_identifier (vpcIdentSource idx v) = []
     then str "vpc_" ++ pad2 idx
     else sanitize_identifier (vpcIdentSource idx v), vpcBlock v) ::
      buildVpcEntries (idx + 1) rest

/-- build_vpc_map as the ordered association list the OrderedDict holds:
vpcs sorted by (region or empty, id or empty), 1-based enumeration. -/
def build_vpc_map (vpcs : List RawVpc) : List (LC × List (LC × HValue)) :=
  buildVpcEntries 1 (sortLe vpcLe vpcs)

/-! ## update_locals_file (cli.py lines 747-785) -/

def BEGIN_MARKER : LC := str "# BEGIN GENERATED ROUTE53 RECORDS"

def END_MARKER : LC := str "# END GENERATED ROUTE53 RECORDS"

/-- The optional trailing newline swallowed by the span pattern. -/
def stripLeadNl : LC → LC
  | '\n' :: t => t
  | s => s

/-- One re.sub pass with pattern BEGIN .*? END newline-option, DOTALL: remove
every non-overlapping span from the first occurrence of b to the first
following occurrence of e, swallowing one trailing newline; scanning resumes
after the removed span.  If some b has no e after it, no span matches at all.
Fuel bounds the recursion; the input length is always enough because every
removed span is nonempty. -/
def removeSpansAux (b e : LC) : Nat → LC → LC
  | 0, s => s
  | fuel + 1, s =>
    match firstOcc b s with
    | none => s
    | some i =>
      match firstOcc e (s.drop (i + b.length)) with
      | none => s
      | some j =>
        s.take i ++
          removeSpansAux b e fuel
            (stripLeadNl ((s.drop (i + b.length)).drop (j + e.length)))

def removeSpans (b e s : LC) : LC := removeSpansAux b e s.length s

/-- The lines local.name with a trailing comma on all but the last. -/
def localVarLines : List LC → List LC
  | [] => []
  | [v] => [str "    local." ++ v]
  | v :: v2 :: rest => (str "    local." ++ v ++ [',']) :: localVarLines (v2 :: rest)

/-- The locals block lines between the markers. -/
def midLines (vars : List LC) : List LC :=
  if vars.isEmpty then
    [str "locals \x7b", str "  zone_records = \x7b\x7d", str "\x7d"]
  else
    [str "locals \x7b", str "  zone_records = merge(", str "    \x7b\x7d,"] ++
    localVarLines vars ++
    [str "  )", str "\x7d"]

/-- The generated block lines of update_locals_file (cli.py lines 756-777). -/
def genBlockLines (vars : List LC) : List LC :=
  [BEGIN_MARKER] ++ midLines vars ++ [END_MARKER, []]

/-- The text strictly between the two markers in the generated block. -/
def genMid (vars : List LC) : LC := '\n' :: (joinNl (midLines vars) ++ ['\n'])

/-- update_locals_file as a transformation of the file content (the file
system read/write around it passes the empty string for a missing file). -/
def update_locals_content (local_vars : List LC) (original : LC) : LC :=
  let cleaned := rstrip (removeSpans BEGIN_MARKER END_MARKER original)
  let generated_block := joinNl (genBlockLines local_vars)
  if cleaned = [] then generated_block
  else cleaned ++ str "\n\n" ++ generated_block

/-! ## Derived notions used in the statements -/

/-- Python truthiness of an optional string. -/
def truthyOpt : Option LC → Bool
  | some v => !v.isEmpty
  | none => false

/-- Number of records in l whose key base is b. -/
def countBase (l : List NormalizedRecord) (b : LC) : Nat :=
  l.countP (fun r => r.key_base == b)

/-- The fixed field order of build_record_attributes. -/
def attrOrder : List LC :=
  [str "full_name", str "type", str "ttl", str "records", str "alias",
   str "set_identifier", str "health_check_id", str "failover",
   str "traffic_policy_instance_id", str "multivalue_answer",
   str "latency_routing_policy", str "weighted_routing_policy",
   str "geolocation_routing_policy"]

/-! ## Concrete fixtures for witnesses and counterexamples -/

def mkRawRecord (name ty : String) (sid : Option String) (vals : List String) : RawRecord :=
  { Name := some (str name), Type_ := some (str ty), ResourceRecords := vals.map str,
    AliasTarget := none, GeoLocation := none, TTL := none, SetIdentifier := sid.map str,
    HealthCheckId := none, Failover := none, TrafficPolicyInstanceId := none,
    MultiValueAnswer := none, Region := none, Weight := none }

def exZone : LC := str "example.com"

def exZoneId : LC := str "Z1"

def wildcardRaw : RawRecord := mkRawRecord "\\052.example.com." "A" none ["192.0.2.1"]

def txtRaw : RawRecord := mkRawRecord "t.example.com." "TXT" none ["\"hello \\\"world\\\"\""]

def pctRaw : RawRecord := mkRawRecord "p.example.com." "A" none ["50% off"]

def sidRaw : RawRecord := mkRawRecord "w.example.com." "a" (some "sid") ["192.0.2.7"]

def geoRawGeo : RawGeo :=
  { ContinentCode := some (str "EU"), CountryCode := none, SubdivisionCode := none }

def geoRaw : RawRecord :=
  { mkRawRecord "g.example.com." "A" none ["192.0.2.1"] with GeoLocation := some geoRawGeo }

def apexRawX : RawRecord :=
  { mkRawRecord "example.com." "A" (some "x") ["192.0.2.1"] with Weight := some 1 }

def apexRawY : RawRecord :=
  { mkRawRecord "example.com." "A" (some "y") ["192.0.2.2"] with Weight := some 1 }

def root02Raw : RawRecord := mkRawRecord "root-02.example.com." "A" none ["192.0.2.3"]

def wwwRawA : RawRecord := mkRawRecord "www.example.com." "A" (some "a") ["192.0.2.1"]

def wwwRawB : RawRecord := mkRawRecord "www.example.com." "A" (some "b") ["192.0.2.2"]

def wwwRawC : RawRecord := mkRawRecord "www.example.com." "A" (some "c") ["192.0.2.3"]

/-- The record keys assigned for a zone, in sorted order. -/
def assignedKeysOf (raws : List RawRecord) : List LC :=
  (collect_zone_records raws exZoneId exZone false [] []).2.2.2.1.map Prod.fst

def sidNorm : NormalizedRecord := (normalize_record sidRaw exZone exZoneId).getD default

def txtNorm : NormalizedRecord := (normalize_record txtRaw exZone exZoneId).getD default

def geoNorm : NormalizedRecord := (normalize_record geoRaw exZone exZoneId).getD default

/-- A fully populated normalized record used to witness the projector. -/
def projRec : NormalizedRecord :=
  { key_base := str "a_www", relative_name := str "www", subdomain := str "www",
    full_name := str "www.example.com", type := str "A",
    records := [str "192.0.2.1"], alias_ := none,
    geo_location := some [(str "continent_code", some (str "EU")),
                          (str "country_code", none), (str "subdivision_code", none)],
    ttl := some 300, set_identifier := some (str "x"), health_check_id := none,
    failover := none, traffic_policy_instance_id := none,
    multi_value_answer := some true, region := some (str "us-east-1"), weight := some 5,
    import_id := str "Z1_www.example.com_A_x" }
theorem isPref_nil_right {p : LC} : isPref p [] = true ↔ p = [] := by
  cases p <;> simp [isPref]

theorem isPref_length_le {p s : LC} (h : isPref p s = true) : p.length ≤ s.length := by
  induction p generalizing s with
  | nil => simp
  | cons a as ih =>
    cases s with
    | nil => simp [isPref] at h
    | cons b bs =>
      simp only [isPref, Bool.and_eq_true, beq_iff_eq] at h
      simpa using ih h.2

theorem isPref_eq_take {p s : LC} (h : isPref p s = true) : p = s.take p.length := by
  induction p generalizing s with
  | nil => simp
  | cons a as ih =>
    cases s with
    | nil => simp [isPref] at h
    | cons b bs =>
      simp only [isPref, Bool.and_eq_true, beq_iff_eq] at h
      simp [h.1, List.take_cons, ← ih h.2]

theorem isPref_of_eq_take {p s : LC} (h : p = s.take p.length) : isPref p s = true := by
  induction p generalizing s with
  | nil => simp [isPref]
  | cons a as ih =>
    cases s with
    | nil => simp at h
    | cons b bs =>
      simp only [List.length_cons, List.take_succ_cons, List.cons.injEq] at h
      simp only [isPref, Bool.and_eq_true, beq_iff_eq]
      exact ⟨h.1, ih h.2⟩

theorem isPref_append_self (p t : LC) : isPref p (p ++ t) = true := by
  apply isPref_of_eq_take
  rw [List.take_append_of_le_length (le_refl _), List.take_length]

theorem isPref_take {p s : LC} {n : Nat} (h : isPref p (s.take n) = true) :
    isPref p s = true := by
  apply isPref_of_eq_take
  have h2 := isPref_eq_take h
  have hlen := isPref_length_le h
  rw [List.take_take] at h2
  rwa [Nat.min_eq_left (le_trans hlen (by simpa using List.length_take_le n s))] at h2

theorem isPref_append_left {p a b : LC} (h : isPref p (a ++ b) = true)
    (hl : p.length ≤ a.length) : isPref p a = true := by
  have h2 := isPref_eq_take h
  rw [List.take_append_of_le_length hl] at h2
  exact isPref_of_eq_take h2

/-- A prefix occurrence that straddles the boundary of a ++ (p ++ y) forces p
to overlap itself: the tail p.drop a.length is also a prefix of p. -/
theorem isPref_straddle {p a y : LC} (h : isPref p (a ++ (p ++ y)) = true)
    (hlt : a.length < p.length) :
    p.drop a.length = p.take (p.length - a.length) := by
  have h2 := isPref_eq_take h
  rw [List.take_append_eq_append_take, List.take_of_length_le (le_of_lt hlt),
    List.take_append_of_le_length (Nat.sub_le _ _)] at h2
  have h3 := congrArg (List.drop a.length) h2
  rwa [List.drop_left] at h3

theorem firstOcc_none_iff {p : LC} {s : LC} :
    firstOcc p s = none ↔ ∀ i, isPref p (s.drop i) = false := by
  induction s with
  | nil =>
    simp only [firstOcc, List.drop_nil]
    by_cases h : isPref p [] <;> simp [h]
  | cons c t ih =>
    simp only [firstOcc]
    by_cases h0 : isPref p (c :: t)
    · simp only [h0, if_true]
      constructor
      · intro h
        exact absurd h (by simp)
      · intro h
        have h1 := h 0
        rw [List.drop_zero, h0] at h1
        exact Bool.noConfusion h1
    · rw [if_neg h0, Option.map_eq_none', ih]
      constructor
      · intro h i
        cases i with
        | zero =>
          rw [List.drop_zero]
          exact Bool.not_eq_true _ ▸ eq_false_of_ne_true h0
        | succ j =>
          simpa using h j
      · intro h j
        simpa using h (j + 1)

theorem firstOcc_eq_some {p : LC} {s : LC} {n : Nat}
    (h1 : isPref p (s.drop n) = true)
    (h2 : ∀ m, m < n → isPref p (s.drop m) = false) :
    firstOcc p s = some n := by
  induction s generalizing n with
  | nil =>
    simp only [List.drop_nil] at h1
    cases n with
    | zero => simp [firstOcc, h1]
    | succ m =>
      have h0 := h2 0 (Nat.succ_pos m)
      simp only [List.drop_nil] at h0
      rw [h1] at h0
      exact Bool.noConfusion h0
  | cons c t ih =>
    cases n with
    | zero =>
      simp only [List.drop_zero] at h1
      simp [firstOcc, h1]
    | succ m =>
      have h0 := h2 0 (Nat.succ_pos m)
      simp only [List.drop_zero] at h0
      simp only [firstOcc, h0, Bool.false_eq_true, if_false]
      have hm : firstOcc p t = some m := by
        apply ih
        · simpa using h1
        · intro k hk
          simpa using h2 (k + 1) (Nat.succ_lt_succ hk)
      simp [hm]

theorem firstOcc_nil {p : LC} (hp : p ≠ []) : firstOcc p [] = none := by
  simp [firstOcc, isPref_nil_right, hp]

/-- Positioning lemma: if p never occurs inside X and p has no nonempty proper
border (no self-overlap), the first occurrence of p in X ++ p ++ Y is exactly
at position X.length. -/
theorem firstOcc_append_self {p X Y : LC} (hp : p ≠ [])
    (hX : ∀ i, isPref p (X.drop i) = false)
    (hb : ∀ k, 0 < k → k < p.length → p.drop k ≠ p.take (p.length - k)) :
    firstOcc p (X ++ (p ++ Y)) = some X.length := by
  apply firstOcc_eq_some
  · rw [List.drop_left]
    exact isPref_append_self p Y
  · intro m hm
    by_contra hc
    rw [Bool.not_eq_false] at hc
    rw [List.drop_append_of_le_length (le_of_lt hm)] at hc
    by_cases hlen : p.length ≤ (X.drop m).length
    · have := isPref_append_left hc hlen
      rw [hX m] at this
      exact Bool.noConfusion this
    · push_neg at hlen
      have hpos : 0 < (X.drop m).length := by
        simp only [List.length_drop]
        omega
      exact hb (X.drop m).length hpos hlen (isPref_straddle hc hlen)

theorem isPref_head_mem {c : Char} {p t : LC} (h : isPref (c :: p) t = true) : c ∈ t := by
  cases t with
  | nil => exact Bool.noConfusion h
  | cons b bs =>
    simp only [isPref, Bool.and_eq_true, beq_iff_eq] at h
    rw [h.1]
    exact List.mem_cons_self _ _

theorem noOcc_head_not_mem {c : Char} {p s : LC} (h : c ∉ s) :
    ∀ i, isPref (c :: p) (s.drop i) = false := by
  intro i
  by_contra hc
  rw [Bool.not_eq_false] at hc
  exact h (List.drop_subset i s (isPref_head_mem hc))

theorem noOcc_take {p s : LC} (h : ∀ i, isPref p (s.drop i) = false) (n : Nat) :
    ∀ i, isPref p ((s.take n).drop i) = false := by
  intro i
  by_contra hc
  rw [Bool.not_eq_false] at hc
  rw [List.drop_take] at hc
  have h2 := isPref_take hc
  rw [h i] at h2
  exact Bool.noConfusion h2

theorem noOcc_snoc {p s : LC} {c : Char} (hp : p ≠ [])
    (h : ∀ i, isPref p (s.drop i) = false)
    (hlast : p.getLast? ≠ some c) :
    ∀ i, isPref p ((s ++ [c]).drop i) = false := by
  intro i
  by_contra hc
  rw [Bool.not_eq_false] at hc
  by_cases hi : i ≤ s.length
  · rw [List.drop_append_of_le_length hi] at hc
    by_cases hlen : p.length ≤ (s.drop i).length
    · have h2 := isPref_append_left hc hlen
      rw [h i] at h2
      exact Bool.noConfusion h2
    · push_neg at hlen
      have hle := isPref_length_le hc
      rw [List.length_append, List.length_cons, List.length_nil] at hle
      have heq : p.length = (s.drop i).length + 1 := by omega
      have h2 := isPref_eq_take hc
      rw [heq] at h2
      have h3 : ((s.drop i) ++ [c]).take ((s.drop i).length + 1) = (s.drop i) ++ [c] := by
        apply List.take_of_length_le
        simp
      rw [h3] at h2
      rw [h2, List.getLast?_concat] at hlast
      exact hlast rfl
  · push_neg at hi
    have hnil : (s ++ [c]).drop i = [] := by
      apply List.drop_eq_nil_of_le
      simp only [List.length_append, List.length_cons, List.length_nil]
      omega
    rw [hnil] at hc
    exact hp (isPref_nil_right.mp hc)

theorem dropWhile_suffix_decomp (p : Char → Bool) (l : LC) :
    ∃ t, l = t ++ l.dropWhile p := by
  induction l with
  | nil => exact ⟨[], rfl⟩
  | cons c cs ih =>
    by_cases h : p c
    · obtain ⟨t, ht⟩ := ih
      refine ⟨c :: t, ?_⟩
      rw [List.dropWhile_cons, if_pos h]
      rw [List.cons_append]
      exact congrArg (c :: ·) ht
    · refine ⟨[], ?_⟩
      rw [List.dropWhile_cons, if_neg h, List.nil_append]

theorem rstrip_prefix_decomp (s : LC) : ∃ u, s = rstrip s ++ u := by
  obtain ⟨t, ht⟩ := dropWhile_suffix_decomp pyIsSpace s.reverse
  refine ⟨t.reverse, ?_⟩
  have h2 := congrArg List.reverse ht
  rw [List.reverse_reverse, List.reverse_append] at h2
  exact h2

theorem rstrip_eq_take (s : LC) : rstrip s = s.take (rstrip s).length := by
  obtain ⟨u, hu⟩ := rstrip_prefix_decomp s
  have h2 : (rstrip s ++ u).take (rstrip s).length = rstrip s := List.take_left _ _
  rw [← hu] at h2
  exact h2.symm

theorem noOcc_rstrip {p s : LC} (h : ∀ i, isPref p (s.drop i) = false) :
    ∀ i, isPref p ((rstrip s).drop i) = false := by
  intro i
  rw [rstrip_eq_take]
  exact noOcc_take h _ i

theorem dropWhile_append_of_all {p : Char → Bool} {u : LC} (hu : ∀ c ∈ u, p c = true)
    (v : LC) : (u ++ v).dropWhile p = v.dropWhile p := by
  induction u with
  | nil => rfl
  | cons c cs ih =>
    rw [List.cons_append, List.dropWhile_cons, if_pos (hu c (List.mem_cons_self _ _))]
    exact ih (fun d hd => hu d (List.mem_cons_of_mem _ hd))

theorem rstrip_append_spaces {w : LC} (hw : ∀ c ∈ w, pyIsSpace c = true) (a : LC) :
    rstrip (a ++ w) = rstrip a := by
  unfold rstrip
  rw [List.reverse_append]
  rw [dropWhile_append_of_all (fun c hc => hw c (List.mem_reverse.mp hc))]

theorem dropWhile_dropWhile (p : Char → Bool) (l : LC) :
    (l.dropWhile p).dropWhile p = l.dropWhile p := by
  induction l with
  | nil => rfl
  | cons c cs ih =>
    rw [List.dropWhile_cons]
    by_cases h : p c
    · rw [if_pos h]
      exact ih
    · rw [if_neg h, List.dropWhile_cons, if_neg h]

theorem rstrip_idem (s : LC) : rstrip (rstrip s) = rstrip s := by
  unfold rstrip
  rw [List.reverse_reverse, dropWhile_dropWhile]

theorem charsLt_trans {x y z : LC} (h1 : charsLt x y = true) (h2 : charsLt y z = true) :
    charsLt x z = true := by
  induction x generalizing y z with
  | nil =>
    cases y with
    | nil => exact Bool.noConfusion h1
    | cons b bs =>
      cases z with
      | nil => exact Bool.noConfusion h2
      | cons c cs => rfl
  | cons a as ih =>
    cases y with
    | nil => exact Bool.noConfusion h1
    | cons b bs =>
      cases z with
      | nil => exact Bool.noConfusion h2
      | cons c cs =>
        simp only [charsLt] at h1 h2 ⊢
        by_cases hab : a = b
        · subst hab
          rw [if_pos rfl] at h1
          by_cases hbc : a = c
          · subst hbc
            rw [if_pos rfl] at h2
            rw [if_pos rfl]
            exact ih h1 h2
          · rw [if_neg hbc] at h2 ⊢
            exact h2
        · rw [if_neg hab] at h1
          by_cases hbc : b = c
          · subst hbc
            rw [if_neg hab]
            exact h1
          · rw [if_neg hbc] at h2
            have hac : a < c := lt_trans (of_decide_eq_true h1) (of_decide_eq_true h2)
            rw [if_neg (ne_of_lt hac)]
            exact decide_eq_true hac
  termination_by x.length

theorem charsLt_connex {x y : LC} (h1 : charsLt x y = false) (h2 : charsLt y x = false) :
    x = y := by
  induction x generalizing y with
  | nil =>
    cases y with
    | nil => rfl
    | cons b bs => exact Bool.noConfusion h1
  | cons a as ih =>
    cases y with
    | nil => exact Bool.noConfusion h2
    | cons b bs =>
      simp only [charsLt] at h1 h2
      by_cases hab : a = b
      · subst hab
        rw [if_pos rfl] at h1 h2
        rw [ih h1 h2]
      · rw [if_neg hab] at h1
        rw [if_neg (fun h => hab h.symm)] at h2
        have hnab : ¬ a < b := of_decide_eq_false h1
        have hnba : ¬ b < a := of_decide_eq_false h2
        exact absurd (le_antisymm (le_of_not_lt hnba) (le_of_not_lt hnab)) hab

theorem charsLe_total (x y : LC) : charsLe x y = true ∨ charsLe y x = true := by
  by_cases h1 : charsLt x y = true
  · exact Or.inl (by simp [charsLe, h1])
  · by_cases h2 : charsLt y x = true
    · exact Or.inr (by simp [charsLe, h2])
    · have := charsLt_connex (eq_false_of_ne_true h1) (eq_false_of_ne_true h2)
      exact Or.inl (by simp [charsLe, this])

theorem charsLe_trans {x y z : LC} (h1 : charsLe x y = true) (h2 : charsLe y z = true) :
    charsLe x z = true := by
  simp only [charsLe, Bool.or_eq_true, beq_iff_eq] at h1 h2 ⊢
  rcases h1 with h1 | h1
  · subst h1; exact h2
  · rcases h2 with h2 | h2
    · subst h2; exact Or.inr h1
    · exact Or.inr (charsLt_trans h1 h2)

theorem lexPair_total (le₂ : β → β → Bool)
    (h : ∀ a b, le₂ a b = true ∨ le₂ b a = true) :
    ∀ x y, lexPair le₂ x y = true ∨ lexPair le₂ y x = true := by
  intro x y
  by_cases h1 : charsLt x.1 y.1 = true
  · exact Or.inl (by simp [lexPair, h1])
  · by_cases h2 : charsLt y.1 x.1 = true
    · exact Or.inr (by simp [lexPair, h2])
    · have heq := charsLt_connex (eq_false_of_ne_true h1) (eq_false_of_ne_true h2)
      rcases h x.2 y.2 with h3 | h3
      · exact Or.inl (by simp [lexPair, heq, h3])
      · exact Or.inr (by simp [lexPair, heq.symm, h3])

theorem lexPair_trans (le₂ : β → β → Bool)
    (h : ∀ a b c, le₂ a b = true → le₂ b c = true → le₂ a c = true) :
    ∀ x y z, lexPair le₂ x y = true → lexPair le₂ y z = true →
      lexPair le₂ x z = true := by
  intro x y z h1 h2
  simp only [lexPair, Bool.or_eq_true, Bool.and_eq_true, beq_iff_eq] at h1 h2 ⊢
  rcases h1 with h1 | ⟨he1, hl1⟩
  · rcases h2 with h2 | ⟨he2, hl2⟩
    · exact Or.inl (charsLt_trans h1 h2)
    · exact Or.inl (he2 ▸ h1)
  · rcases h2 with h2 | ⟨he2, hl2⟩
    · exact Or.inl (he1 ▸ h2)
    · exact Or.inr ⟨he1.trans he2, h x.2 y.2 z.2 hl1 hl2⟩

theorem mem_insertLe (le : α → α → Bool) (x : α) (l : List α) (a : α) :
    a ∈ insertLe le x l ↔ a = x ∨ a ∈ l := by
  induction l with
  | nil => simp [insertLe]
  | cons y ys ih =>
    simp only [insertLe]
    by_cases h : le x y
    · simp [h]
    · rw [if_neg h]
      simp only [List.mem_cons, ih]
      tauto

theorem insertLe_perm (le : α → α → Bool) (x : α) (l : List α) :
    (insertLe le x l).Perm (x :: l) := by
  induction l with
  | nil => simp [insertLe]
  | cons y ys ih =>
    simp only [insertLe]
    by_cases h : le x y
    · rw [if_pos h]
    · rw [if_neg h]
      exact (ih.cons y).trans (List.Perm.swap x y ys)

theorem sortLe_perm (le : α → α → Bool) (l : List α) : (sortLe le l).Perm l := by
  induction l with
  | nil => rfl
  | cons x xs ih => exact (insertLe_perm le x (sortLe le xs)).trans (ih.cons x)

theorem insertLe_pairwise (le : α → α → Bool)
    (htot : ∀ a b, le a b = true ∨ le b a = true)
    (htrans : ∀ a b c, le a b = true → le b c = true → le a c = true)
    (x : α) {l : List α} (hl : l.Pairwise (fun a b => le a b = true)) :
    (insertLe le x l).Pairwise (fun a b => le a b = true) := by
  induction l with
  | nil => simp [insertLe]
  | cons y ys ih =>
    rw [List.pairwise_cons] at hl
    simp only [insertLe]
    by_cases h : le x y
    · rw [if_pos h, List.pairwise_cons]
      refine ⟨?_, List.pairwise_cons.mpr hl⟩
      intro b hb
      rcases List.mem_cons.mp hb with hb | hb
      · exact hb ▸ h
      · exact htrans x y b h (hl.1 b hb)
    · rw [if_neg h, List.pairwise_cons]
      refine ⟨?_, ih hl.2⟩
      intro b hb
      rcases (mem_insertLe le x ys b).mp hb with hb | hb
      · rw [hb]
        rcases htot x y with h2 | h2
        · exact absurd h2 h
        · exact h2
      · exact hl.1 b hb

theorem sortLe_pairwise (le : α → α → Bool)
    (htot : ∀ a b, le a b = true ∨ le b a = true)
    (htrans : ∀ a b c, le a b = true → le b c = true → le a c = true)
    (l : List α) :
    (sortLe le l).Pairwise (fun a b => le a b = true) := by
  induction l with
  | nil => simp [sortLe]
  | cons x xs ih => exact insertLe_pairwise le htot htrans x ih

theorem digitsVal_append_digit (a : LC) (c : Char) :
    digitsVal (a ++ [c]) = digitsVal a * 10 + (c.toNat - 48) := by
  unfold digitsVal
  rw [List.foldl_append]
  rfl

theorem digitChar_val {n : Nat} (h : n < 10) : (digitChar n).toNat - 48 = n := by
  interval_cases n <;> rfl

theorem digitsVal_natToCharsAux {fuel n : Nat} (h : n < fuel) :
    digitsVal (natToCharsAux fuel n) = n := by
  induction fuel generalizing n with
  | zero => omega
  | succ f ih =>
    rw [natToCharsAux]
    by_cases h10 : n < 10
    · rw [if_pos h10]
      show digitsVal ([] ++ [digitChar n]) = n
      rw [digitsVal_append_digit]
      simp [digitsVal, digitChar_val h10]
    · rw [if_neg h10]
      rw [digitsVal_append_digit]
      have hd : n / 10 < f := by omega
      rw [ih hd, digitChar_val (Nat.mod_lt n (by omega))]
      omega

theorem digitsVal_natToChars (n : Nat) : digitsVal (natToChars n) = n :=
  digitsVal_natToCharsAux (Nat.lt_succ_self n)

theorem natToChars_inj {m n : Nat} (h : natToChars m = natToChars n) : m = n := by
  have h2 := congrArg digitsVal h
  rwa [digitsVal_natToChars, digitsVal_natToChars] at h2

theorem digitsVal_pad2 (n : Nat) : digitsVal (pad2 n) = n := by
  unfold pad2
  by_cases h : n < 10
  · rw [if_pos h]
    show digitsVal ('0' :: natToChars n) = n
    have : digitsVal ('0' :: natToChars n) = digitsVal (natToChars n) := by
      unfold digitsVal
      rfl
    rw [this, digitsVal_natToChars]
  · rw [if_neg h, digitsVal_natToChars]

theorem pad2_inj {m n : Nat} (h : pad2 m = pad2 n) : m = n := by
  have h2 := congrArg digitsVal h
  rwa [digitsVal_pad2, digitsVal_pad2] at h2

theorem suffixFor_inj {m n : Nat} (h : suffixFor m = suffixFor n) : m = n := by
  unfold suffixFor at h
  by_cases hm : m = 1
  · by_cases hn : n = 1
    · rw [hm, hn]
    · rw [if_pos hm, if_neg hn] at h
      exact absurd h (by simp)
  · by_cases hn : n = 1
    · rw [if_neg hm, if_pos hn] at h
      exact absurd h (by simp)
    · rw [if_neg hm, if_neg hn] at h
      injection h with h1 h2
      exact pad2_inj h2

theorem mem_joinNl {c : Char} {ls : List LC} (h : c ∈ joinNl ls) :
    c = '\n' ∨ ∃ l ∈ ls, c ∈ l := by
  induction ls with
  | nil => exact absurd h (List.not_mem_nil c)
  | cons l rest ih =>
    cases rest with
    | nil =>
      exact Or.inr ⟨l, List.mem_cons_self _ _, h⟩
    | cons l2 ls2 =>
      rw [joinNl] at h
      rcases List.mem_append.mp h with h1 | h1
      · exact Or.inr ⟨l, List.mem_cons_self _ _, h1⟩
      · rcases List.mem_cons.mp h1 with h2 | h2
        · exact Or.inl h2
        · rcases ih h2 with h3 | ⟨l3, hl3, hc3⟩
          · exact Or.inl h3
          · exact Or.inr ⟨l3, List.mem_cons_of_mem _ hl3, hc3⟩

/-- C5: normalize computes importId as the underscore-join of the zone id,
the record full name (or the zone name when that is empty) and the uppercased
record type, appending the set identifier exactly when the raw record carries
one (a nonempty identifier, the truthiness test of the source); being a pure
function of the raw input, recomputing it yields an identical string. -/
theorem importId_spec (raw : RawRecord) (zone_name zone_id : LC) (n : NormalizedRecord)
    (h : normalize_record raw zone_name zone_id = some n) :
    n.import_id = joinWith '_'
      ([zone_id, if n.full_name = [] then zone_name else n.full_name, n.type] ++
        (match raw.SetIdentifier with
         | some s => if s = [] then [] else [s]
         | none => [])) ∧
    n.type = (raw.Type_.getD []).map Char.toUpper ∧
    normalize_record raw zone_name zone_id = normalize_record raw zone_name zone_id := by
  unfold normalize_record at h
  by_cases hskip : (raw.Type_.getD []).map Char.toUpper ∈ SKIP_RECORD_TYPES
  · rw [if_pos hskip] at h
    exact Option.noConfusion h
  · rw [if_neg hskip] at h
    cases Option.some.inj h
    refine ⟨?_, rfl, rfl⟩
    cases hs : raw.SetIdentifier with
    | none =>
      simp only [hs]
      rfl
    | some s =>
      simp only [hs]
      by_cases hse : s = []
      · simp only [hse, if_pos rfl]
        rfl
      · rw [if_neg hse, if_neg hse]

/-- Witness for importId_spec at the concrete record sidRaw. -/
theorem importId_spec_witness :
    normalize_record sidRaw exZone exZoneId = some sidNorm ∧
    (sidNorm.import_id = joinWith '_'
      ([exZoneId, if sidNorm.full_name = [] then exZone else sidNorm.full_name,
        sidNorm.type] ++
        (match sidRaw.SetIdentifier with
         | some s => if s = [] then [] else [s]
         | none => [])) ∧
     sidNorm.type = (sidRaw.Type_.getD []).map Char.toUpper ∧
     normalize_record sidRaw exZone exZoneId = normalize_record sidRaw exZone exZoneId) :=
  ⟨by decide, importId_spec sidRaw exZone exZoneId sidNorm (by decide)⟩

/-- C6: TXT and SPF values wrapped in double quotes lose exactly one outer
quote pair and internal backslash-escaped quotes become plain quotes, then
every value of every record type has each percent sign not already followed
by another percent sign doubled; concretely the wrapped provider text with
hello world becomes the unwrapped quoted text, and 50 percent off doubles its
percent sign. -/
theorem value_normalization_spec :
    (∀ (raw : RawRecord) (zone_name zone_id : LC) (n : NormalizedRecord),
      normalize_record raw zone_name zone_id = some n →
      n.records = raw.ResourceRecords.map (fun v =>
        escape_percent_signs
          (if (n.type == str "TXT" || n.type == str "SPF") && headIs '"' v && lastIs '"' v
           then replaceAll (str "\\\"") (str "\"") (v.drop 1).dropLast
           else v))) ∧
    (normalize_record txtRaw exZone exZoneId).map (·.records) =
      some [str "hello \"world\""] ∧
    (normalize_record pctRaw exZone exZoneId).map (·.records) =
      some [str "50%% off"] := by
  refine ⟨?_, by decide, by decide⟩
  intro raw zone_name zone_id n h
  unfold normalize_record at h
  by_cases hskip : (raw.Type_.getD []).map Char.toUpper ∈ SKIP_RECORD_TYPES
  · rw [if_pos hskip] at h
    exact Option.noConfusion h
  · rw [if_neg hskip] at h
    cases Option.some.inj h
    rfl

/-- Witness for the quantified part of value_normalization_spec. -/
theorem value_normalization_spec_witness :
    normalize_record txtRaw exZone exZoneId = some txtNorm ∧
    txtNorm.records = txtRaw.ResourceRecords.map (fun v =>
      escape_percent_signs
        (if (txtNorm.type == str "TXT" || txtNorm.type == str "SPF") &&
            headIs '"' v && lastIs '"' v
         then replaceAll (str "\\\"") (str "\"") (v.drop 1).dropLast
         else v)) :=
  ⟨by decide, value_normalization_spec.1 txtRaw exZone exZoneId txtNorm (by decide)⟩

/-- C7: the provider escape sequence for the wildcard is decoded back to a
literal star in the record name and in the alias target name, and the
concrete wildcard record under example.com normalizes to full name
star.example.com, relative name star, subdomain star and key base a_star. -/
theorem wildcard_spec :
    (∀ (raw : RawRecord) (zone_name zone_id : LC) (n : NormalizedRecord),
      normalize_record raw zone_name zone_id = some n →
      n.full_name = replaceAll (str "\\052") (str "*") (rstripDots (raw.Name.getD [])) ∧
      ∀ a, raw.AliasTarget = some a → a.truthy = true →
        n.alias_ = some { name := replaceAll (str "\\052") (str "*")
                                    (rstripDots (a.DNSName.getD []))
                          zone_id := a.HostedZoneId
                          evaluate_target_health := a.EvaluateTargetHealth }) ∧
    (normalize_record wildcardRaw exZone exZoneId).map
        (fun n => (n.full_name, n.relative_name, n.subdomain, n.key_base)) =
      some (str "*.example.com", str "*", str "star", str "a_star") := by
  refine ⟨?_, by decide⟩
  intro raw zone_name zone_id n h
  unfold normalize_record at h
  by_cases hskip : (raw.Type_.getD []).map Char.toUpper ∈ SKIP_RECORD_TYPES
  · rw [if_pos hskip] at h
    exact Option.noConfusion h
  · rw [if_neg hskip] at h
    cases Option.some.inj h
    refine ⟨rfl, ?_⟩
    intro a ha htruth
    simp only [ha, htruth, if_true]

/-- Witness for the quantified part of wildcard_spec: a wildcard alias. -/
theorem wildcard_spec_witness :
    normalize_record sidRaw exZone exZoneId = some sidNorm ∧
    (sidNorm.full_name =
        replaceAll (str "\\052") (str "*") (rstripDots (sidRaw.Name.getD [])) ∧
     ∀ a, sidRaw.AliasTarget = some a → a.truthy = true →
        sidNorm.alias_ = some { name := replaceAll (str "\\052") (str "*")
                                          (rstripDots (a.DNSName.getD []))
                                zone_id := a.HostedZoneId
                                evaluate_target_health := a.EvaluateTargetHealth }) :=
  ⟨by decide, (wildcard_spec.1 sidRaw exZone exZoneId sidNorm (by decide))⟩

theorem dictGetOpt_geo_cont (a b c : Option LC) :
    dictGetOpt [(str "continent_code", a), (str "country_code", b),
                (str "subdivision_code", c)] (str "continent_code") = a := rfl

theorem dictGetOpt_geo_country (a b c : Option LC) :
    dictGetOpt [(str "continent_code", a), (str "country_code", b),
                (str "subdivision_code", c)] (str "country_code") = b := rfl

theorem dictGetOpt_geo_sub (a b c : Option LC) :
    dictGetOpt [(str "continent_code", a), (str "country_code", b),
                (str "subdivision_code", c)] (str "subdivision_code") = c := rfl

theorem geoSeg_keys (tgt : LC) (o : Option LC) :
    (geoSeg tgt o).map Prod.fst = (if truthyOpt o then [tgt] else []) := by
  cases o with
  | none => simp [geoSeg, truthyOpt]
  | some v =>
    by_cases hv : v = [] <;> simp [geoSeg, truthyOpt, hv]

theorem geoProj_keys (a b c : Option LC) :
    (geoProj [(str "continent_code", a), (str "country_code", b),
              (str "subdivision_code", c)]).map Prod.fst =
      (if truthyOpt a then [str "continent"] else []) ++
      (if truthyOpt b then [str "country"] else []) ++
      (if truthyOpt c then [str "subdivision"] else []) := by
  unfold geoProj
  rw [dictGetOpt_geo_cont, dictGetOpt_geo_country, dictGetOpt_geo_sub]
  rw [List.map_append, List.map_append, geoSeg_keys, geoSeg_keys, geoSeg_keys]

/-- C3 counterexample: geoRaw carries only a continent code, yet the
normalized geoLocation map of the source stores the absent country and
subdivision subfields as keys with null placeholder values. -/
theorem geo_placeholder_counterexample :
    geoRaw.GeoLocation.map (·.CountryCode) = some none ∧
    normalize_record geoRaw exZone exZoneId = some geoNorm ∧
    (str "country_code", (none : Option LC)) ∈ geoNorm.geo_location.getD [] :=
  ⟨by decide, by decide, by decide⟩

/-- C3 amended: for a raw record with a (truthy) geolocation object the
normalizer writes all three subfield keys, with null placeholders for absent
subfields; the attribute projector keeps exactly the renamed keys whose
source value is present and nonempty, so placeholders never reach the
projected attributes. -/
theorem geo_projection_spec (raw : RawRecord) (zone_name zone_id : LC)
    (n : NormalizedRecord) (g : RawGeo)
    (h : normalize_record raw zone_name zone_id = some n)
    (hg : raw.GeoLocation = some g) (ht : g.truthy = true) :
    n.geo_location = some [(str "continent_code", g.ContinentCode),
                           (str "country_code", g.CountryCode),
                           (str "subdivision_code", g.SubdivisionCode)] ∧
    (geoProj (n.geo_location.getD [])).map Prod.fst =
      (if truthyOpt g.ContinentCode then [str "continent"] else []) ++
      (if truthyOpt g.CountryCode then [str "country"] else []) ++
      (if truthyOpt g.SubdivisionCode then [str "subdivision"] else []) := by
  have hgeo : n.geo_location = some [(str "continent_code", g.ContinentCode),
      (str "country_code", g.CountryCode), (str "subdivision_code", g.SubdivisionCode)] := by
    unfold normalize_record at h
    by_cases hskip : (raw.Type_.getD []).map Char.toUpper ∈ SKIP_RECORD_TYPES
    · rw [if_pos hskip] at h
      exact Option.noConfusion h
    · rw [if_neg hskip] at h
      cases Option.some.inj h
      simp only [hg, ht, if_true]
  refine ⟨hgeo, ?_⟩
  rw [hgeo]
  exact geoProj_keys _ _ _

/-- Witness for geo_projection_spec at the concrete record geoRaw. -/
theorem geo_projection_spec_witness :
    (normalize_record geoRaw exZone exZoneId = some geoNorm ∧
     geoRaw.GeoLocation = some geoRawGeo ∧
     RawGeo.truthy geoRawGeo = true) ∧
    (geoNorm.geo_location = some [(str "continent_code", some (str "EU")),
                                  (str "country_code", none),
                                  (str "subdivision_code", none)] ∧
     (geoProj (geoNorm.geo_location.getD [])).map Prod.fst =
       (if truthyOpt (some (str "EU")) then [str "continent"] else []) ++
       (if truthyOpt none then [str "country"] else []) ++
       (if truthyOpt none then [str "subdivision"] else [])) :=
  ⟨⟨by decide, by decide, by decide⟩,
   geo_projection_spec geoRaw exZone exZoneId geoNorm geoRawGeo
     (by decide) (by decide) (by decide)⟩

theorem contains_iff_mem {l : List LC} {x : LC} : l.contains x = true ↔ x ∈ l :=
  List.elem_iff

/-- C4: the exclude filter drops a record only when its full name matches an
exclude pattern and its type is in the configured skippable subset, while a
non-empty include list keeps a record exactly when its full name matches one
of the include patterns, regardless of type; an MX record is never dropped by
the exclude patterns under the default skippable subset of A and CNAME.  The
compiled case-insensitive regular expressions are abstracted by their search
verdicts. -/
theorem filter_asymmetry :
    (∀ (skippable : List LC) (skips includes : List HostPattern) (n : NormalizedRecord),
      keepRecord skippable skips includes n = true ↔
        ((skips = [] ∨ n.type ∉ skippable ∨ ∀ p ∈ skips, p.search n.full_name = false) ∧
         (includes = [] ∨ ∃ p ∈ includes, p.search n.full_name = true))) ∧
    (∀ (skips includes : List HostPattern) (n : NormalizedRecord),
      n.type = str "MX" →
      (keepRecord SKIPPABLE_IMPORT_TYPES skips includes n = true ↔
        (includes = [] ∨ ∃ p ∈ includes, p.search n.full_name = true))) := by
  have main : ∀ (skippable : List LC) (skips includes : List HostPattern)
      (n : NormalizedRecord),
      keepRecord skippable skips includes n = true ↔
        ((skips = [] ∨ n.type ∉ skippable ∨ ∀ p ∈ skips, p.search n.full_name = false) ∧
         (includes = [] ∨ ∃ p ∈ includes, p.search n.full_name = true)) := by
    intro skippable skips includes n
    unfold keepRecord
    constructor
    · intro hk
      split_ifs at hk with h1 h2
      constructor
      · by_cases hs : skips = []
        · exact Or.inl hs
        · by_cases hc : n.type ∈ skippable
          · refine Or.inr (Or.inr ?_)
            intro p hp
            by_contra hsearch
            rw [Bool.not_eq_false] at hsearch
            apply h1
            rw [Bool.and_eq_true, Bool.and_eq_true]
            refine ⟨⟨?_, contains_iff_mem.mpr hc⟩, ?_⟩
            · simp [List.isEmpty_iff, hs]
            · exact List.any_eq_true.mpr ⟨p, hp, hsearch⟩
          · exact Or.inr (Or.inl hc)
      · by_cases hi : includes = []
        · exact Or.inl hi
        · refine Or.inr ?_
          by_contra hno
          apply h2
          rw [Bool.and_eq_true]
          constructor
          · simp [List.isEmpty_iff, hi]
          · rw [Bool.not_eq_true', ← Bool.not_eq_true]
            intro hany
            exact hno (List.any_eq_true.mp hany)
    · rintro ⟨hA, hB⟩
      split_ifs with h1 h2
      · rw [Bool.and_eq_true, Bool.and_eq_true] at h1
        obtain ⟨⟨h11, h12⟩, h13⟩ := h1
        rcases hA with hA | hA | hA
        · rw [hA] at h11
          exact Bool.noConfusion h11
        · exact absurd (contains_iff_mem.mp h12) hA
        · obtain ⟨p, hp, hsearch⟩ := List.any_eq_true.mp h13
          rw [hA p hp] at hsearch
          exact Bool.noConfusion hsearch
      · rw [Bool.and_eq_true] at h2
        obtain ⟨h21, h22⟩ := h2
        rcases hB with hB | hB
        · rw [hB] at h21
          exact Bool.noConfusion h21
        · rw [Bool.not_eq_true'] at h22
          rw [List.any_eq_true.mpr hB] at h22
          exact Bool.noConfusion h22
      · rfl
  refine ⟨main, ?_⟩
  intro skips includes n hmx
  rw [main SKIPPABLE_IMPORT_TYPES skips includes n]
  have hnot : n.type ∉ SKIPPABLE_IMPORT_TYPES := by
    rw [hmx]
    decide
  constructor
  · rintro ⟨_, hB⟩
    exact hB
  · intro hB
    exact ⟨Or.inr (Or.inl hnot), hB⟩

/-- Witness for filter_asymmetry: an MX record with a matching broad exclude
pattern is kept. -/
theorem filter_asymmetry_witness :
    (sidNorm.key_base = sidNorm.key_base) ∧
    ((keepRecord SKIPPABLE_IMPORT_TYPES [] [] sidNorm = true ↔
        (([] : List HostPattern) = [] ∨ sidNorm.type ∉ SKIPPABLE_IMPORT_TYPES ∨
          ∀ p ∈ ([] : List HostPattern), p.search sidNorm.full_name = false) ∧
        (([] : List HostPattern) = [] ∨
          ∃ p ∈ ([] : List HostPattern), p.search sidNorm.full_name = true)) ∧
     (keepRecord SKIPPABLE_IMPORT_TYPES [{ search := fun _ => true }] []
        { sidNorm with type := str "MX" } = true ↔
       (([] : List HostPattern) = [] ∨
         ∃ p ∈ ([] : List HostPattern),
           p.search ({ sidNorm with type := str "MX" } : NormalizedRecord).full_name = true))) :=
  ⟨rfl,
   filter_asymmetry.1 SKIPPABLE_IMPORT_TYPES [] [] sidNorm,
   filter_asymmetry.2 [{ search := fun _ => true }] []
     { sidNorm with type := str "MX" } rfl⟩

theorem isIdentStart_of_char {c : Char} (h : isIdentChar c = true)
    (hd : isAsciiDigit c = false) : isIdentStart c = true := by
  simp only [isIdentChar, isAlnumChar, Bool.or_eq_true] at h
  simp only [isIdentStart, Bool.or_eq_true]
  rcases h with (h | h) | h
  · exact Or.inl h
  · rw [h] at hd
    exact Bool.noConfusion hd
  · exact Or.inr (by simpa using h)

theorem sanitize_identifier_ok (v : LC) :
    sanitize_identifier v ≠ [] ∧ identifierShape (sanitize_identifier v) = true := by
  unfold sanitize_identifier
  have hall : ∀ c ∈ v.map (fun c => if isIdentChar c then c else '_'),
      isIdentChar c = true := by
    intro c hc
    obtain ⟨d, _, hd⟩ := List.mem_map.mp hc
    by_cases hD : isIdentChar d
    · rw [if_pos hD] at hd
      rwa [← hd]
    · rw [if_neg hD] at hd
      rw [← hd]
      rfl
  by_cases hcase : ((v.map (fun c => if isIdentChar c then c else '_')).isEmpty ||
      startsWithDigit (v.map (fun c => if isIdentChar c then c else '_'))) = true
  · rw [if_pos hcase]
    refine ⟨by simp, ?_⟩
    show (isIdentStart '_' &&
      (v.map (fun c => if isIdentChar c then c else '_')).all isIdentChar) = true
    rw [List.all_eq_true.mpr hall]
    rfl
  · rw [if_neg hcase]
    rw [Bool.or_eq_true] at hcase
    push_neg at hcase
    obtain ⟨hne, hdig⟩ := hcase
    cases hm : v.map (fun c => if isIdentChar c then c else '_') with
    | nil =>
      rw [hm] at hne
      exact absurd rfl hne
    | cons c rest =>
      rw [hm] at hall hdig
      refine ⟨by simp, ?_⟩
      show (isIdentStart c && rest.all isIdentChar) = true
      rw [Bool.and_eq_true]
      constructor
      · apply isIdentStart_of_char (hall c (List.mem_cons_self _ _))
        have hdig2 := eq_false_of_ne_true hdig
        simpa [startsWithDigit] using hdig2
      · exact List.all_eq_true.mpr (fun d hd => hall d (List.mem_cons_of_mem _ hd))

theorem buildVpcEntries_no_fallback (idx : Nat) (v : RawVpc) (rest : List RawVpc) :
    buildVpcEntries idx (v :: rest) =
      (sanitize_identifier (vpcIdentSource idx v), vpcBlock v) ::
        buildVpcEntries (idx + 1) rest := by
  rw [show buildVpcEntries idx (v :: rest) =
      ((if sanitize_identifier (vpcIdentSource idx v) = [] then str "vpc_" ++ pad2 idx
        else sanitize_identifier (vpcIdentSource idx v)), vpcBlock v) ::
        buildVpcEntries (idx + 1) rest from rfl]
  rw [if_neg (sanitize_identifier_ok (vpcIdentSource idx v)).1]

theorem buildVpcEntries_keys_shape (l : List RawVpc) (idx : Nat) (k : LC)
    (hk : k ∈ (buildVpcEntries idx l).map Prod.fst) : identifierShape k = true := by
  induction l generalizing idx with
  | nil => exact absurd hk (by simp [buildVpcEntries])
  | cons v rest ih =>
    rw [buildVpcEntries_no_fallback] at hk
    rcases List.mem_cons.mp hk with hk | hk
    · rw [hk]
      exact (sanitize_identifier_ok _).2
    · exact ih (idx + 1) hk

/-- C10: sanitizeIdentifier always returns a nonempty string headed by a
letter or underscore with only identifier characters after it, hence a valid
bare identifier; consequently the vpc_NN fallback key of build_vpc_map is
dead code, every key of the vpc map is a valid bare identifier, and so is
every zone-records local-variable name. -/
theorem sanitize_identifier_invariant :
    (∀ v : LC, sanitize_identifier v ≠ [] ∧
      identifierShape (sanitize_identifier v) = true) ∧
    (∀ (idx : Nat) (v : RawVpc) (rest : List RawVpc),
      buildVpcEntries idx (v :: rest) =
        (sanitize_identifier (vpcIdentSource idx v), vpcBlock v) ::
          buildVpcEntries (idx + 1) rest) ∧
    (∀ (vpcs : List RawVpc) (k : LC),
      k ∈ (build_vpc_map vpcs).map Prod.fst → identifierShape k = true) ∧
    (∀ zone_key : LC,
      identifierShape (sanitize_identifier (str "zone_records_" ++ zone_key)) = true) :=
  ⟨sanitize_identifier_ok, buildVpcEntries_no_fallback,
   fun _ k hk => buildVpcEntries_keys_shape _ 1 k hk,
   fun zone_key => (sanitize_identifier_ok (str "zone_records_" ++ zone_key)).2⟩

/-- Witness for sanitize_identifier_invariant on a concrete vpc list. -/
theorem sanitize_identifier_invariant_witness :
    (str "us_east_1_vpc_1" ∈
      (build_vpc_map [{ vpc_id := some (str "vpc-1"), vpc_region := some (str "us-east-1") },
                      { vpc_id := some (str "vpc-2"), vpc_region := some (str "us-east-1") }]).map
        Prod.fst) ∧
    identifierShape (str "us_east_1_vpc_1") = true :=
  ⟨by decide,
   sanitize_identifier_invariant.2.2.1
     [{ vpc_id := some (str "vpc-1"), vpc_region := some (str "us-east-1") },
      { vpc_id := some (str "vpc-2"), vpc_region := some (str "us-east-1") }]
     (str "us_east_1_vpc_1") (by decide)⟩

/-- C8: the renderer encodes booleans as the literals true and false, null as
the literal null and integers as unquoted decimal literals, and quotes map
keys with json.dumps; but the key quoting decision uses re.match of the
dollar-anchored IDENTIFIER_PATTERN, and a Python dollar anchor also matches
just before one trailing newline, so the key ab followed by a newline is
emitted bare even though it does not have the identifier shape - the code
diverges from the claimed behaviour at that input. -/
theorem identifier_pattern_newline_divergence :
    format_name (str "ab\n") = str "ab\n" ∧
    identifierShape (str "ab\n") = false ∧
    pyMatchIdentifier (str "ab\n") = true ∧
    format_name (str "a-b") = jsonDumps (str "a-b") ∧
    format_name (str "ab") = str "ab" ∧
    to_hcl_literal (.bool true) = str "true" ∧
    to_hcl_literal (.bool false) = str "false" ∧
    to_hcl_literal .null = str "null" ∧
    to_hcl_literal (.int 300) = str "300" ∧
    to_hcl_literal (.strv (str "a b")) = jsonDumps (str "a b") := by
  refine ⟨by decide, by decide, by decide, by decide, by decide,
    by decide, by decide, by decide, by decide, by decide⟩

theorem ttlPart_keys (r : NormalizedRecord) {k : LC} (h : k ∈ (ttlPart r).map Prod.fst) :
    k = str "ttl" ∧ r.ttl ≠ none := by
  cases ht : r.ttl with
  | none => simp [ttlPart, ht] at h
  | some t =>
    simp only [ttlPart, ht, List.map_cons, List.map_nil, List.mem_singleton] at h
    exact ⟨h, by simp [ht]⟩

theorem recordsPart_keys (r : NormalizedRecord) {k : LC}
    (h : k ∈ (recordsPart r).map Prod.fst) : k = str "records" ∧ r.records ≠ [] := by
  by_cases hr : r.records = []
  · simp [recordsPart, hr] at h
  · simp only [recordsPart, if_neg hr, List.map_cons, List.map_nil,
      List.mem_singleton] at h
    exact ⟨h, hr⟩

theorem aliasPart_keys (r : NormalizedRecord) {k : LC}
    (h : k ∈ (aliasPart r).map Prod.fst) : k = str "alias" ∧ r.alias_ ≠ none := by
  cases ha : r.alias_ with
  | none => simp [aliasPart, ha] at h
  | some a =>
    simp only [aliasPart, ha, List.map_cons, List.map_nil, List.mem_singleton] at h
    exact ⟨h, by simp [ha]⟩

theorem setIdPart_keys (r : NormalizedRecord) {k : LC}
    (h : k ∈ (setIdPart r).map Prod.fst) :
    k = str "set_identifier" ∧ r.set_identifier ≠ none := by
  cases hs : r.set_identifier with
  | none => simp [setIdPart, hs] at h
  | some v =>
    simp only [setIdPart, hs, List.map_cons, List.map_nil, List.mem_singleton] at h
    exact ⟨h, by simp [hs]⟩

theorem healthPart_keys (r : NormalizedRecord) {k : LC}
    (h : k ∈ (healthPart r).map Prod.fst) :
    k = str "health_check_id" ∧ r.health_check_id ≠ none := by
  cases hs : r.health_check_id with
  | none => simp [healthPart, hs] at h
  | some v =>
    simp only [healthPart, hs, List.map_cons, List.map_nil, List.mem_singleton] at h
    exact ⟨h, by simp [hs]⟩

theorem failoverPart_keys (r : NormalizedRecord) {k : LC}
    (h : k ∈ (failoverPart r).map Prod.fst) :
    k = str "failover" ∧ r.failover ≠ none := by
  cases hs : r.failover with
  | none => simp [failoverPart, hs] at h
  | some v =>
    simp only [failoverPart, hs, List.map_cons, List.map_nil, List.mem_singleton] at h
    exact ⟨h, by simp [hs]⟩

theorem tpiiPart_keys (r : NormalizedRecord) {k : LC}
    (h : k ∈ (tpiiPart r).map Prod.fst) :
    k = str "traffic_policy_instance_id" ∧ r.traffic_policy_instance_id ≠ none := by
  cases hs : r.traffic_policy_instance_id with
  | none => simp [tpiiPart, hs] at h
  | some v =>
    simp only [tpiiPart, hs, List.map_cons, List.map_nil, List.mem_singleton] at h
    exact ⟨h, by simp [hs]⟩

theorem mvaPart_keys (r : NormalizedRecord) {k : LC}
    (h : k ∈ (mvaPart r).map Prod.fst) :
    k = str "multivalue_answer" ∧ r.multi_value_answer ≠ none := by
  cases hs : r.multi_value_answer with
  | none => simp [mvaPart, hs] at h
  | some v =>
    simp only [mvaPart, hs, List.map_cons, List.map_nil, List.mem_singleton] at h
    exact ⟨h, by simp [hs]⟩

theorem latencyPart_keys (r : NormalizedRecord) {k : LC}
    (h : k ∈ (latencyPart r).map Prod.fst) :
    k = str "latency_routing_policy" ∧ truthyOpt r.region = true := by
  cases hs : r.region with
  | none => simp [latencyPart, hs] at h
  | some v =>
    by_cases hv : v = []
    · simp [latencyPart, hs, hv] at h
    · simp only [latencyPart, hs, if_neg hv, List.map_cons, List.map_nil,
        List.mem_singleton] at h
      refine ⟨h, ?_⟩
      simp [truthyOpt, hv]

theorem weightPart_keys (r : NormalizedRecord) {k : LC}
    (h : k ∈ (weightPart r).map Prod.fst) :
    k = str "weighted_routing_policy" ∧ r.weight ≠ none := by
  cases hs : r.weight with
  | none => simp [weightPart, hs] at h
  | some v =>
    simp only [weightPart, hs, List.map_cons, List.map_nil, List.mem_singleton] at h
    exact ⟨h, by simp [hs]⟩

theorem geoPart_keys (r : NormalizedRecord) {k : LC}
    (h : k ∈ (geoPart r).map Prod.fst) :
    k = str "geolocation_routing_policy" ∧ geoProj (r.geo_location.getD []) ≠ [] := by
  by_cases hg : (geoProj (r.geo_location.getD [])).isEmpty = true
  · simp [geoPart, hg] at h
  · simp only [geoPart, hg, Bool.false_eq_true, if_false, List.map_cons, List.map_nil,
      List.mem_singleton] at h
    refine ⟨h, ?_⟩
    intro hempty
    rw [hempty] at hg
    exact hg rfl

theorem build_keys_cases {r : NormalizedRecord} {k : LC}
    (hk : k ∈ (build_record_attributes r).map Prod.fst) :
    k = str "full_name" ∨ k = str "type" ∨
    k ∈ (ttlPart r).map Prod.fst ∨ k ∈ (recordsPart r).map Prod.fst ∨
    k ∈ (aliasPart r).map Prod.fst ∨ k ∈ (setIdPart r).map Prod.fst ∨
    k ∈ (healthPart r).map Prod.fst ∨ k ∈ (failoverPart r).map Prod.fst ∨
    k ∈ (tpiiPart r).map Prod.fst ∨ k ∈ (mvaPart r).map Prod.fst ∨
    k ∈ (latencyPart r).map Prod.fst ∨ k ∈ (weightPart r).map Prod.fst ∨
    k ∈ (geoPart r).map Prod.fst := by
  simp only [build_record_attributes, List.map_append, List.mem_append, List.map_cons,
    List.map_nil, List.mem_cons, List.not_mem_nil, or_false] at hk
  tauto

/-- Every key of the projected attribute map names the field it came from,
and an optional key can only be present when its source field is. -/
theorem build_keys_names {r : NormalizedRecord} {k : LC}
    (hk : k ∈ (build_record_attributes r).map Prod.fst) :
    k = str "full_name" ∨ k = str "type" ∨
    (k = str "ttl" ∧ r.ttl ≠ none) ∨
    (k = str "records" ∧ r.records ≠ []) ∨
    (k = str "alias" ∧ r.alias_ ≠ none) ∨
    (k = str "set_identifier" ∧ r.set_identifier ≠ none) ∨
    (k = str "health_check_id" ∧ r.health_check_id ≠ none) ∨
    (k = str "failover" ∧ r.failover ≠ none) ∨
    (k = str "traffic_policy_instance_id" ∧ r.traffic_policy_instance_id ≠ none) ∨
    (k = str "multivalue_answer" ∧ r.multi_value_answer ≠ none) ∨
    (k = str "latency_routing_policy" ∧ truthyOpt r.region = true) ∨
    (k = str "weighted_routing_policy" ∧ r.weight ≠ none) ∨
    (k = str "geolocation_routing_policy" ∧ geoProj (r.geo_location.getD []) ≠ []) := by
  rcases build_keys_cases hk with h | h | h | h | h | h | h | h | h | h | h | h | h
  · exact Or.inl h
  · exact Or.inr (Or.inl h)
  · exact Or.inr (Or.inr (Or.inl (ttlPart_keys r h)))
  · exact Or.inr (Or.inr (Or.inr (Or.inl (recordsPart_keys r h))))
  · exact Or.inr (Or.inr (Or.inr (Or.inr (Or.inl (aliasPart_keys r h)))))
  · exact Or.inr (Or.inr (Or.inr (Or.inr (Or.inr (Or.inl (setIdPart_keys r h))))))
  · exact Or.inr (Or.inr (Or.inr (Or.inr (Or.inr (Or.inr (Or.inl (healthPart_keys r h)))))))
  · exact Or.inr (Or.inr (Or.inr (Or.inr (Or.inr (Or.inr (Or.inr (Or.inl
      (failoverPart_keys r h))))))))
  · exact Or.inr (Or.inr (Or.inr (Or.inr (Or.inr (Or.inr (Or.inr (Or.inr (Or.inl
      (tpiiPart_keys r h)))))))))
  · exact Or.inr (Or.inr (Or.inr (Or.inr (Or.inr (Or.inr (Or.inr (Or.inr (Or.inr (Or.inl
      (mvaPart_keys r h))))))))))
  · exact Or.inr (Or.inr (Or.inr (Or.inr (Or.inr (Or.inr (Or.inr (Or.inr (Or.inr (Or.inr
      (Or.inl (latencyPart_keys r h)))))))))))
  · exact Or.inr (Or.inr (Or.inr (Or.inr (Or.inr (Or.inr (Or.inr (Or.inr (Or.inr (Or.inr
      (Or.inr (Or.inl (weightPart_keys r h))))))))))))
  · exact Or.inr (Or.inr (Or.inr (Or.inr (Or.inr (Or.inr (Or.inr (Or.inr (Or.inr (Or.inr
      (Or.inr (Or.inr (geoPart_keys r h))))))))))))

theorem sub_singleton_of {l : List LC} {kk : LC} (h : l = [] ∨ l = [kk]) :
    List.Sublist l [kk] := by
  rcases h with h | h <;> rw [h] <;> first
    | exact List.nil_sublist _
    | exact List.Sublist.refl _

theorem ttlPart_eta (r : NormalizedRecord) :
    (ttlPart r).map Prod.fst = [] ∨ (ttlPart r).map Prod.fst = [str "ttl"] := by
  cases ht : r.ttl <;> simp [ttlPart, ht]

theorem recordsPart_eta (r : NormalizedRecord) :
    (recordsPart r).map Prod.fst = [] ∨ (recordsPart r).map Prod.fst = [str "records"] := by
  by_cases hr : r.records = [] <;> simp [recordsPart, hr]

theorem aliasPart_eta (r : NormalizedRecord) :
    (aliasPart r).map Prod.fst = [] ∨ (aliasPart r).map Prod.fst = [str "alias"] := by
  cases ha : r.alias_ <;> simp [aliasPart, ha]

theorem setIdPart_eta (r : NormalizedRecord) :
    (setIdPart r).map Prod.fst = [] ∨
      (setIdPart r).map Prod.fst = [str "set_identifier"] := by
  cases hs : r.set_identifier <;> simp [setIdPart, hs]

theorem healthPart_eta (r : NormalizedRecord) :
    (healthPart r).map Prod.fst = [] ∨
      (healthPart r).map Prod.fst = [str "health_check_id"] := by
  cases hs : r.health_check_id <;> simp [healthPart, hs]

theorem failoverPart_eta (r : NormalizedRecord) :
    (failoverPart r).map Prod.fst = [] ∨
      (failoverPart r).map Prod.fst = [str "failover"] := by
  cases hs : r.failover <;> simp [failoverPart, hs]

theorem tpiiPart_eta (r : NormalizedRecord) :
    (tpiiPart r).map Prod.fst = [] ∨
      (tpiiPart r).map Prod.fst = [str "traffic_policy_instance_id"] := by
  cases hs : r.traffic_policy_instance_id <;> simp [tpiiPart, hs]

theorem mvaPart_eta (r : NormalizedRecord) :
    (mvaPart r).map Prod.fst = [] ∨
      (mvaPart r).map Prod.fst = [str "multivalue_answer"] := by
  cases hs : r.multi_value_answer <;> simp [mvaPart, hs]

theorem latencyPart_eta (r : NormalizedRecord) :
    (latencyPart r).map Prod.fst = [] ∨
      (latencyPart r).map Prod.fst = [str "latency_routing_policy"] := by
  cases hs : r.region with
  | none => simp [latencyPart, hs]
  | some v => by_cases hv : v = [] <;> simp [latencyPart, hs, hv]

theorem weightPart_eta (r : NormalizedRecord) :
    (weightPart r).map Prod.fst = [] ∨
      (weightPart r).map Prod.fst = [str "weighted_routing_policy"] := by
  cases hs : r.weight <;> simp [weightPart, hs]

theorem geoPart_eta (r : NormalizedRecord) :
    (geoPart r).map Prod.fst = [] ∨
      (geoPart r).map Prod.fst = [str "geolocation_routing_policy"] := by
  by_cases hg : (geoProj (r.geo_location.getD [])).isEmpty = true <;> simp [geoPart, hg]

theorem build_attrs_order (r : NormalizedRecord) :
    List.Sublist ((build_record_attributes r).map Prod.fst) attrOrder := by
  show List.Sublist _ ([str "full_name", str "type"] ++ [str "ttl"] ++ [str "records"] ++
    [str "alias"] ++ [str "set_identifier"] ++ [str "health_check_id"] ++
    [str "failover"] ++ [str "traffic_policy_instance_id"] ++
    [str "multivalue_answer"] ++ [str "latency_routing_policy"] ++
    [str "weighted_routing_policy"] ++ [str "geolocation_routing_policy"])
  simp only [build_record_attributes, List.map_append, List.map_cons, List.map_nil]
  refine List.Sublist.append ?_ (sub_singleton_of (geoPart_eta r))
  refine List.Sublist.append ?_ (sub_singleton_of (weightPart_eta r))
  refine List.Sublist.append ?_ (sub_singleton_of (latencyPart_eta r))
  refine List.Sublist.append ?_ (sub_singleton_of (mvaPart_eta r))
  refine List.Sublist.append ?_ (sub_singleton_of (tpiiPart_eta r))
  refine List.Sublist.append ?_ (sub_singleton_of (failoverPart_eta r))
  refine List.Sublist.append ?_ (sub_singleton_of (healthPart_eta r))
  refine List.Sublist.append ?_ (sub_singleton_of (setIdPart_eta r))
  refine List.Sublist.append ?_ (sub_singleton_of (aliasPart_eta r))
  refine List.Sublist.append ?_ (sub_singleton_of (recordsPart_eta r))
  exact List.Sublist.append (List.Sublist.refl _) (sub_singleton_of (ttlPart_eta r))

theorem geoSeg_key {tgt : LC} {o : Option LC} {k : LC}
    (h : k ∈ (geoSeg tgt o).map Prod.fst) : k = tgt := by
  cases o with
  | none => simp [geoSeg] at h
  | some v =>
    by_cases hv : v = []
    · simp [geoSeg, hv] at h
    · simpa [geoSeg, hv] using h

theorem geoProj_key_names (d : List (LC × Option LC)) (k : LC)
    (hk : k ∈ (geoProj d).map Prod.fst) :
    k = str "continent" ∨ k = str "country" ∨ k = str "subdivision" := by
  unfold geoProj at hk
  simp only [List.map_append, List.mem_append] at hk
  rcases hk with (h | h) | h
  · exact Or.inl (geoSeg_key h)
  · exact Or.inr (Or.inl (geoSeg_key h))
  · exact Or.inr (Or.inr (geoSeg_key h))

theorem mva_mem {r : NormalizedRecord} {b : Bool} (h : r.multi_value_answer = some b) :
    (str "multivalue_answer", HValue.scalar (.bool b)) ∈ build_record_attributes r := by
  simp [build_record_attributes, mvaPart, h, List.mem_append]

theorem latency_mem {r : NormalizedRecord} {g : LC} (h : r.region = some g) (hg : g ≠ []) :
    (str "latency_routing_policy", HValue.map [(str "region", hstr g)]) ∈
      build_record_attributes r := by
  simp [build_record_attributes, latencyPart, h, hg, List.mem_append]

theorem weight_mem {r : NormalizedRecord} {w : Int} (h : r.weight = some w) :
    (str "weighted_routing_policy", HValue.map [(str "weight", HValue.scalar (.int w))]) ∈
      build_record_attributes r := by
  simp [build_record_attributes, weightPart, h, List.mem_append]

theorem internal_mva_name_absent (r : NormalizedRecord) :
    str "multi_value_answer" ∉ (build_record_attributes r).map Prod.fst := by
  intro hk
  rcases build_keys_names hk with h | h | h | h | h | h | h | h | h | h | h | h | h
  all_goals first
    | exact absurd h (by decide)
    | exact absurd h.1 (by decide)

/-- C9: the projected attribute map lists its keys as a subsequence of the
fixed order full_name, type, ttl, records, alias, set_identifier,
health_check_id, failover, traffic_policy_instance_id, multivalue_answer,
latency_routing_policy, weighted_routing_policy, geolocation_routing_policy;
an optional key appears only when its source field is present, so absent
fields are omitted entirely and never emitted as null; the internal field
multi_value_answer is renamed to multivalue_answer; a present nonempty
region yields latency_routing_policy with a region entry and a present
weight yields weighted_routing_policy with a weight entry; the geolocation
submap uses only the renamed keys continent, country, subdivision, each
present only when its source value is, and the whole submap is dropped when
it would be empty. -/
theorem attribute_projection_spec :
    (∀ r, List.Sublist ((build_record_attributes r).map Prod.fst) attrOrder) ∧
    (∀ r (k : LC), k ∈ (build_record_attributes r).map Prod.fst →
      k = str "full_name" ∨ k = str "type" ∨
      (k = str "ttl" ∧ r.ttl ≠ none) ∨
      (k = str "records" ∧ r.records ≠ []) ∨
      (k = str "alias" ∧ r.alias_ ≠ none) ∨
      (k = str "set_identifier" ∧ r.set_identifier ≠ none) ∨
      (k = str "health_check_id" ∧ r.health_check_id ≠ none) ∨
      (k = str "failover" ∧ r.failover ≠ none) ∨
      (k = str "traffic_policy_instance_id" ∧ r.traffic_policy_instance_id ≠ none) ∨
      (k = str "multivalue_answer" ∧ r.multi_value_answer ≠ none) ∨
      (k = str "latency_routing_policy" ∧ truthyOpt r.region = true) ∨
      (k = str "weighted_routing_policy" ∧ r.weight ≠ none) ∨
      (k = str "geolocation_routing_policy" ∧ geoProj (r.geo_location.getD []) ≠ [])) ∧
    (∀ r, str "multi_value_answer" ∉ (build_record_attributes r).map Prod.fst) ∧
    (∀ r (b : Bool), r.multi_value_answer = some b →
      (str "multivalue_answer", HValue.scalar (.bool b)) ∈ build_record_attributes r) ∧
    (∀ r (g : LC), r.region = some g → g ≠ [] →
      (str "latency_routing_policy", HValue.map [(str "region", hstr g)]) ∈
        build_record_attributes r) ∧
    (∀ r (w : Int), r.weight = some w →
      (str "weighted_routing_policy", HValue.map [(str "weight", HValue.scalar (.int w))]) ∈
        build_record_attributes r) ∧
    (∀ (d : List (LC × Option LC)) (k : LC), k ∈ (geoProj d).map Prod.fst →
      k = str "continent" ∨ k = str "country" ∨ k = str "subdivision") ∧
    (∀ r, geoProj (r.geo_location.getD []) = [] →
      str "geolocation_routing_policy" ∉ (build_record_attributes r).map Prod.fst) := by
  refine ⟨build_attrs_order, fun r k hk => build_keys_names hk, internal_mva_name_absent,
    fun r b h => mva_mem h, fun r g h hg => latency_mem h hg, fun r w h => weight_mem h,
    geoProj_key_names, ?_⟩
  intro r hempty hk
  rcases build_keys_names hk with h | h | h | h | h | h | h | h | h | h | h | h | h
  all_goals first
    | exact absurd h (by decide)
    | exact absurd h.1 (by decide)
    | exact absurd hempty h.2

/-- Witness for attribute_projection_spec at the concrete record projRec. -/
theorem attribute_projection_spec_witness :
    (projRec.multi_value_answer = some true ∧ projRec.region = some (str "us-east-1") ∧
     (str "us-east-1" : LC) ≠ [] ∧ projRec.weight = some 5) ∧
    ((str "multivalue_answer", HValue.scalar (.bool true)) ∈
        build_record_attributes projRec ∧
     (str "latency_routing_policy", HValue.map [(str "region", hstr (str "us-east-1"))]) ∈
        build_record_attributes projRec ∧
     (str "weighted_routing_policy", HValue.map [(str "weight", HValue.scalar (.int 5))]) ∈
        build_record_attributes projRec) :=
  ⟨⟨rfl, rfl, by decide, rfl⟩,
   attribute_projection_spec.2.2.2.1 projRec true rfl,
   attribute_projection_spec.2.2.2.2.1 projRec (str "us-east-1") rfl (by decide),
   attribute_projection_spec.2.2.2.2.2.1 projRec 5 rfl⟩

theorem assignAux_length (counts : List (LC × Nat)) (rs : List NormalizedRecord) :
    (assignAux counts rs).length = rs.length := by
  induction rs generalizing counts with
  | nil => rfl
  | cons r rest ih => simp [assignAux, ih]

theorem lookupCount_setCount (counts : List (LC × Nat)) (b b2 : LC) (n : Nat) :
    lookupCount (setCount counts b n) b2 = if b2 = b then n else lookupCount counts b2 := by
  induction counts with
  | nil =>
    simp only [setCount, lookupCount]
    by_cases h : b = b2
    · rw [if_pos h, if_pos h.symm]
    · rw [if_neg h, if_neg (fun h2 => h h2.symm)]
  | cons kv rest ih =>
    obtain ⟨k, v⟩ := kv
    by_cases hk : k = b
    · subst hk
      simp only [setCount, if_pos rfl, lookupCount]
      by_cases h2 : k = b2
      · rw [if_pos h2, if_pos h2.symm]
      · rw [if_neg h2, if_neg (fun h3 => h2 h3.symm), if_neg h2]
    · simp only [setCount, if_neg hk, lookupCount]
      by_cases h2 : k = b2
      · rw [if_pos h2, if_pos h2, if_neg (fun h3 : b2 = b => hk (h2.trans h3))]
      · rw [if_neg h2, if_neg h2, ih]

theorem countBase_cons (r : NormalizedRecord) (l : List NormalizedRecord) (b : LC) :
    countBase (r :: l) b = (if r.key_base = b then 1 else 0) + countBase l b := by
  simp only [countBase, List.countP_cons]
  by_cases h : r.key_base = b
  · simp [h]
    omega
  · simp [h]

/-- The key assigned at position i is the key base of the i-th record plus
the collision suffix for its occurrence count among the first i+1 records,
offset by whatever the counts table already holds. -/
theorem assignAux_key (rs : List NormalizedRecord) (counts : List (LC × Nat))
    (i : Nat) (hi : i < rs.length) (hj : i < (assignAux counts rs).length) :
    ((assignAux counts rs).get ⟨i, hj⟩).1 =
      (rs.get ⟨i, hi⟩).key_base ++
        suffixFor (lookupCount counts (rs.get ⟨i, hi⟩).key_base +
          countBase (rs.take (i + 1)) (rs.get ⟨i, hi⟩).key_base) := by
  induction rs generalizing counts i with
  | nil => exact absurd hi (by simp)
  | cons r rest ih =>
    cases i with
    | zero =>
      simp only [assignAux, List.get]
      rw [List.take_succ_cons, List.take_zero, countBase_cons]
      simp [countBase]
    | succ m =>
      simp only [assignAux, List.get]
      have hm : m < rest.length := by simpa using hi
      have hm2 : m < (assignAux (setCount counts r.key_base
          (lookupCount counts r.key_base + 1)) rest).length := by
        rw [assignAux_length]
        exact hm
      rw [ih (setCount counts r.key_base (lookupCount counts r.key_base + 1)) m hm hm2]
      rw [List.take_succ_cons, countBase_cons, lookupCount_setCount]
      by_cases hb : (rest.get ⟨m, hm⟩).key_base = r.key_base
      · rw [if_pos hb, if_pos hb.symm, hb]
        congr 1
        congr 1
        omega
      · rw [if_neg hb, if_neg (fun h => hb h.symm)]
        congr 2
        omega

theorem recordLe_total (a b : NormalizedRecord) :
    recordLe a b = true ∨ recordLe b a = true :=
  lexPair_total _ (lexPair_total _ charsLe_total) (recSortKey a) (recSortKey b)

theorem recordLe_trans (a b c : NormalizedRecord) (h1 : recordLe a b = true)
    (h2 : recordLe b c = true) : recordLe a c = true :=
  lexPair_trans (lexPair charsLe)
    (lexPair_trans charsLe (fun _ _ _ hx hy => charsLe_trans hx hy))
    (recSortKey a) (recSortKey b) (recSortKey c) h1 h2

theorem countBase_mono {rs : List NormalizedRecord} {i j : Nat} {b : LC} (hij : i < j)
    (hj : j < rs.length) (hb : (rs.get ⟨j, hj⟩).key_base = b) :
    countBase (rs.take (i + 1)) b < countBase (rs.take (j + 1)) b := by
  have h1 : countBase (rs.take (i + 1)) b ≤ countBase (rs.take j) b := by
    have heq : rs.take (i + 1) = (rs.take j).take (i + 1) := by
      rw [List.take_take, Nat.min_eq_left (by omega)]
    rw [countBase, countBase, heq]
    exact List.Sublist.countP_le _ (List.take_prefix _ _).sublist
  have h2 : countBase (rs.take (j + 1)) b = countBase (rs.take j) b + 1 := by
    rw [countBase, countBase, List.take_succ, List.getElem?_eq_getElem hj,
      List.countP_append]
    have hg : rs.get ⟨j, hj⟩ = rs[j] := rfl
    rw [hg] at hb
    simp [hb]
  omega

theorem assignKeys_distinct_same_base (rs : List NormalizedRecord) (i j : Nat)
    (hi : i < rs.length) (hj : j < rs.length) (hij : i < j)
    (hb : (rs.get ⟨i, hi⟩).key_base = (rs.get ⟨j, hj⟩).key_base)
    (hi2 : i < (assignKeys rs).length) (hj2 : j < (assignKeys rs).length) :
    ((assignKeys rs).get ⟨i, hi2⟩).1 ≠ ((assignKeys rs).get ⟨j, hj2⟩).1 := by
  simp only [assignKeys] at hi2 hj2 ⊢
  rw [assignAux_key rs [] i hi hi2, assignAux_key rs [] j hj hj2]
  intro heq
  rw [hb] at heq
  have heq2 := suffixFor_inj (List.append_cancel_left heq)
  have hcount := countBase_mono (b := (rs.get ⟨j, hj⟩).key_base) hij hj rfl
  omega

/-- C2 amended: after filtering, records are sorted ascending by the triple
(keyBase, setIdentifier-or-empty, fullName); in that order the record at
position i receives keyBase plus the 02d-formatted count of its keyBase
among the first i+1 records (empty suffix for the first occurrence, _02 and
_03 for the next ones); three A records at one name with set identifiers a,
b, c receive a_www, a_www_02, a_www_03; keys of records sharing one keyBase
are pairwise distinct, but keys are not always distinct across different
keyBases: a keyBase that itself ends in the counter suffix of another
keyBase can collide with it. -/
theorem record_key_assignment :
    (∀ rs : List NormalizedRecord,
      (sortLe recordLe rs).Pairwise (fun a b => recordLe a b = true) ∧
      (sortLe recordLe rs).Perm rs) ∧
    (∀ (rs : List NormalizedRecord) (i : Nat) (hi : i < rs.length)
        (hj : i < (assignKeys rs).length),
      ((assignKeys rs).get ⟨i, hj⟩).1 =
        (rs.get ⟨i, hi⟩).key_base ++
          suffixFor (countBase (rs.take (i + 1)) (rs.get ⟨i, hi⟩).key_base)) ∧
    (∀ (rs : List NormalizedRecord) (i j : Nat) (hi : i < rs.length)
        (hj : j < rs.length), i < j →
      (rs.get ⟨i, hi⟩).key_base = (rs.get ⟨j, hj⟩).key_base →
      ∀ (hi2 : i < (assignKeys rs).length) (hj2 : j < (assignKeys rs).length),
      ((assignKeys rs).get ⟨i, hi2⟩).1 ≠ ((assignKeys rs).get ⟨j, hj2⟩).1) ∧
    assignedKeysOf [wwwRawC, wwwRawA, wwwRawB] =
      [str "a_www", str "a_www_02", str "a_www_03"] := by
  refine ⟨?_, ?_, ?_, by decide⟩
  · intro rs
    exact ⟨sortLe_pairwise recordLe recordLe_total recordLe_trans rs,
      sortLe_perm recordLe rs⟩
  · intro rs i hi hj
    simp only [assignKeys] at hj ⊢
    rw [assignAux_key rs [] i hi hj]
    simp [lookupCount]
  · intro rs i j hi hj hij hb hi2 hj2
    exact assignKeys_distinct_same_base rs i j hi hj hij hb hi2 hj2

/-- Witness for record_key_assignment on the concrete three-record zone. -/
theorem record_key_assignment_witness :
    ((sortLe recordLe [projRec]).Pairwise (fun a b => recordLe a b = true) ∧
     (sortLe recordLe [projRec]).Perm [projRec]) ∧
    (0 < ([projRec] : List NormalizedRecord).length ∧
     0 < (assignKeys [projRec]).length ∧
     ((assignKeys [projRec]).get ⟨0, by decide⟩).1 =
       (([projRec] : List NormalizedRecord).get ⟨0, by decide⟩).key_base ++
         suffixFor (countBase (([projRec] : List NormalizedRecord).take 1)
           (([projRec] : List NormalizedRecord).get ⟨0, by decide⟩).key_base)) :=
  ⟨record_key_assignment.1 [projRec],
   by decide, by decide,
   record_key_assignment.2.1 [projRec] 0 (by decide) (by decide)⟩

/-- C2 counterexample: two apex A records (set identifiers x and y) and an A
record at the subdomain root-02 are assigned the keys a_root, a_root_02 and
a_root_02 - the second and third collide, so assigned keys are not always
distinct within a zone. -/
theorem record_key_collision_counterexample :
    assignedKeysOf [apexRawX, apexRawY, root02Raw] =
      [str "a_root", str "a_root_02", str "a_root_02"] ∧
    ¬ (assignedKeysOf [apexRawX, apexRawY, root02Raw]).Nodup :=
  ⟨by decide, by decide⟩

theorem joinNl_cons (l l2 : LC) (ls : List LC) :
    joinNl (l :: l2 :: ls) = l ++ '\n' :: joinNl (l2 :: ls) := rfl

theorem joinNl_append_last_two (mid : List LC) (hm : mid ≠ []) (x y : LC) :
    joinNl (mid ++ [x, y]) = joinNl mid ++ '\n' :: (x ++ '\n' :: y) := by
  induction mid with
  | nil => exact absurd rfl hm
  | cons m rest ih =>
    cases rest with
    | nil => rfl
    | cons m2 rest2 =>
      have e1 : joinNl (m :: ((m2 :: rest2) ++ [x, y])) =
          m ++ '\n' :: joinNl ((m2 :: rest2) ++ [x, y]) := rfl
      rw [show m :: m2 :: rest2 ++ [x, y] = m :: ((m2 :: rest2) ++ [x, y]) from rfl,
        e1, ih (by simp), joinNl_cons]
      simp [List.append_assoc]

theorem midLines_ne_nil (vars : List LC) : midLines vars ≠ [] := by
  unfold midLines
  split <;> simp

theorem gen_decomp (vars : List LC) :
    joinNl (genBlockLines vars) =
      BEGIN_MARKER ++ (genMid vars ++ (END_MARKER ++ ['\n'])) := by
  have h1 : genBlockLines vars = (BEGIN_MARKER :: midLines vars) ++ [END_MARKER, []] := by
    rw [genBlockLines]
    simp
  rw [h1, joinNl_append_last_two (BEGIN_MARKER :: midLines vars) (by simp) END_MARKER []]
  cases hmv : midLines vars with
  | nil => exact absurd hmv (midLines_ne_nil vars)
  | cons m rest =>
    rw [joinNl_cons]
    simp [genMid, hmv, List.append_assoc]

theorem localVarLines_mem {vars : List LC} {l : LC} (h : l ∈ localVarLines vars) :
    ∃ v ∈ vars, l = str "    local." ++ v ∨ l = str "    local." ++ v ++ [','] := by
  induction vars with
  | nil => simp [localVarLines] at h
  | cons v rest ih =>
    cases rest with
    | nil =>
      simp only [localVarLines, List.mem_singleton] at h
      exact ⟨v, by simp, Or.inl h⟩
    | cons v2 rest2 =>
      have e1 : localVarLines (v :: v2 :: rest2) =
          (str "    local." ++ v ++ [',']) :: localVarLines (v2 :: rest2) := rfl
      rw [e1] at h
      rcases List.mem_cons.mp h with h | h
      · exact ⟨v, by simp, Or.inr h⟩
      · obtain ⟨w, hw, hl⟩ := ih h
        exact ⟨w, List.mem_cons_of_mem _ hw, hl⟩

theorem identifierShape_chars {v : LC} (hv : identifierShape v = true) {c : Char}
    (hc : c ∈ v) : isIdentChar c = true := by
  cases v with
  | nil => exact absurd hc (List.not_mem_nil c)
  | cons a rest =>
    simp only [identifierShape, Bool.and_eq_true] at hv
    rcases List.mem_cons.mp hc with h | h
    · rw [h]
      have h1 := hv.1
      simp only [isIdentStart, Bool.or_eq_true] at h1
      simp only [isIdentChar, isAlnumChar, Bool.or_eq_true]
      rcases h1 with h2 | h2
      · exact Or.inl (Or.inl h2)
      · exact Or.inr (by simpa using h2)
    · exact List.all_eq_true.mp hv.2 c h

theorem hash_not_mem_genMid {vars : List LC} (hv : vars.all identifierShape = true) :
    '#' ∉ genMid vars := by
  intro hc
  rw [genMid] at hc
  rcases List.mem_cons.mp hc with h | h
  · exact absurd h (by decide)
  · rcases List.mem_append.mp h with h | h
    · rcases mem_joinNl h with h | ⟨l, hl, hcl⟩
      · exact absurd h (by decide)
      · unfold midLines at hl
        by_cases hve : vars.isEmpty
        · rw [if_pos hve] at hl
          rcases List.mem_cons.mp hl with h2 | hl
          · rw [h2] at hcl
            exact absurd hcl (by decide)
          rcases List.mem_cons.mp hl with h2 | hl
          · rw [h2] at hcl
            exact absurd hcl (by decide)
          rcases List.mem_cons.mp hl with h2 | hl
          · rw [h2] at hcl
            exact absurd hcl (by decide)
          · exact absurd hl (List.not_mem_nil l)
        · rw [if_neg hve] at hl
          rcases List.mem_append.mp hl with hl | hl
          · rcases List.mem_append.mp hl with hl | hl
            · rcases List.mem_cons.mp hl with h2 | hl
              · rw [h2] at hcl
                exact absurd hcl (by decide)
              rcases List.mem_cons.mp hl with h2 | hl
              · rw [h2] at hcl
                exact absurd hcl (by decide)
              rcases List.mem_cons.mp hl with h2 | hl
              · rw [h2] at hcl
                exact absurd hcl (by decide)
              · exact absurd hl (List.not_mem_nil l)
            · obtain ⟨w, hw, hcase⟩ := localVarLines_mem hl
              have hws : identifierShape w = true := List.all_eq_true.mp hv w hw
              rcases hcase with h2 | h2 <;> rw [h2] at hcl
              · rcases List.mem_append.mp hcl with h3 | h3
                · exact absurd h3 (by decide)
                · have := identifierShape_chars hws h3
                  exact absurd this (by decide)
              · rcases List.mem_append.mp hcl with h3 | h3
                · rcases List.mem_append.mp h3 with h4 | h4
                  · exact absurd h4 (by decide)
                  · have := identifierShape_chars hws h4
                    exact absurd this (by decide)
                · exact absurd h3 (by decide)
          · rcases List.mem_cons.mp hl with h2 | hl
            · rw [h2] at hcl
              exact absurd hcl (by decide)
            rcases List.mem_cons.mp hl with h2 | hl
            · rw [h2] at hcl
              exact absurd hcl (by decide)
            · exact absurd hl (List.not_mem_nil l)
    · exact absurd (List.mem_singleton.mp h) (by decide)

theorem begin_noBorder : ∀ k, k < BEGIN_MARKER.length → 0 < k →
    BEGIN_MARKER.drop k ≠ BEGIN_MARKER.take (BEGIN_MARKER.length - k) := by decide

theorem end_noBorder : ∀ k, k < END_MARKER.length → 0 < k →
    END_MARKER.drop k ≠ END_MARKER.take (END_MARKER.length - k) := by decide

theorem drop_two_append (a b r : LC) :
    (a ++ (b ++ r)).drop (a.length + b.length) = r := by
  rw [← List.append_assoc, ← List.length_append, List.drop_left]

theorem removeSpansAux_nil (b e : LC) (hb : b ≠ []) (fuel : Nat) :
    removeSpansAux b e fuel [] = [] := by
  cases fuel with
  | zero => rfl
  | succ f =>
    simp only [removeSpansAux, firstOcc_nil hb]

theorem removeSpansAux_step (b e : LC) (fuel : Nat) (s : LC) {i j : Nat}
    (hB : firstOcc b s = some i) (hE : firstOcc e (s.drop (i + b.length)) = some j) :
    removeSpansAux b e (fuel + 1) s =
      s.take i ++
        removeSpansAux b e fuel
          (stripLeadNl ((s.drop (i + b.length)).drop (j + e.length))) := by
  simp only [removeSpansAux, hB, hE]

/-- Removing the spans from X ++ marker-span leaves exactly X whenever the
begin marker never occurs in X and the end marker never occurs in the body
between the markers. -/
theorem removeSpans_span (X M : LC)
    (hX : ∀ i, isPref BEGIN_MARKER (X.drop i) = false)
    (hM : ∀ i, isPref END_MARKER (M.drop i) = false) :
    removeSpans BEGIN_MARKER END_MARKER
      (X ++ (BEGIN_MARKER ++ (M ++ (END_MARKER ++ ['\n'])))) = X := by
  have hB : firstOcc BEGIN_MARKER
      (X ++ (BEGIN_MARKER ++ (M ++ (END_MARKER ++ ['\n'])))) = some X.length :=
    firstOcc_append_self (by decide) hX (fun k h1 h2 => begin_noBorder k h2 h1)
  have hrest : (X ++ (BEGIN_MARKER ++ (M ++ (END_MARKER ++ ['\n'])))).drop
      (X.length + BEGIN_MARKER.length) = M ++ (END_MARKER ++ ['\n']) :=
    drop_two_append _ _ _
  have hE : firstOcc END_MARKER
      ((X ++ (BEGIN_MARKER ++ (M ++ (END_MARKER ++ ['\n'])))).drop
        (X.length + BEGIN_MARKER.length)) = some M.length := by
    rw [hrest]
    exact firstOcc_append_self (by decide) hM (fun k h1 h2 => end_noBorder k h2 h1)
  have hpos : 0 < (X ++ (BEGIN_MARKER ++ (M ++ (END_MARKER ++ ['\n'])))).length := by
    simp [BEGIN_MARKER, str]
  rw [removeSpans]
  rw [show (X ++ (BEGIN_MARKER ++ (M ++ (END_MARKER ++ ['\n'])))).length =
      ((X ++ (BEGIN_MARKER ++ (M ++ (END_MARKER ++ ['\n'])))).length - 1) + 1 by omega]
  rw [removeSpansAux_step _ _ _ _ hB hE]
  rw [hrest, drop_two_append]
  rw [show stripLeadNl ['\n'] = [] from rfl]
  rw [removeSpansAux_nil _ _ (by decide), List.append_nil, List.take_left]

/-- C1 amended: for a prior file content that contains no marker strings
outside a generated span (formally: after removing the generated spans, no
marker occurs), and for identifier-shaped local-variable names (which is
what the callers always pass), updating the locals section twice yields
exactly the content of one update - the second call leaves the file
byte-identical - and the output starts with the hand-written text outside
the span stripped of its trailing whitespace.  Trailing whitespace of the
hand-written text is normalised to one blank-line separator rather than
preserved byte-for-byte. -/
theorem update_locals_idempotent (vars : List LC) (prior : LC)
    (h1 : firstOcc BEGIN_MARKER (removeSpans BEGIN_MARKER END_MARKER prior) = none)
    (h2 : firstOcc END_MARKER (removeSpans BEGIN_MARKER END_MARKER prior) = none)
    (h3 : vars.all identifierShape = true) :
    update_locals_content vars (update_locals_content vars prior) =
      update_locals_content vars prior ∧
    ∃ t, update_locals_content vars prior =
      rstrip (removeSpans BEGIN_MARKER END_MARKER prior) ++ t := by
  have hMfree : ∀ i, isPref END_MARKER ((genMid vars).drop i) = false := by
    have hE : END_MARKER = '#' :: str " END GENERATED ROUTE53 RECORDS" := rfl
    rw [hE]
    exact noOcc_head_not_mem (hash_not_mem_genMid h3)
  have hgen : joinNl (genBlockLines vars) =
      BEGIN_MARKER ++ (genMid vars ++ (END_MARKER ++ ['\n'])) := gen_decomp vars
  have hnoB : ∀ i, isPref BEGIN_MARKER
      ((rstrip (removeSpans BEGIN_MARKER END_MARKER prior)).drop i) = false :=
    noOcc_rstrip (firstOcc_none_iff.mp h1)
  have hrsg : removeSpans BEGIN_MARKER END_MARKER (joinNl (genBlockLines vars)) = [] := by
    have h0 : ∀ i, isPref BEGIN_MARKER (([] : LC).drop i) = false := by
      intro i
      rw [List.drop_nil]
      decide
    have h := removeSpans_span [] (genMid vars) h0 hMfree
    rw [hgen]
    simpa using h
  by_cases hc : rstrip (removeSpans BEGIN_MARKER END_MARKER prior) = []
  · have honce : update_locals_content vars prior = joinNl (genBlockLines vars) := by
      rw [show update_locals_content vars prior =
          (if rstrip (removeSpans BEGIN_MARKER END_MARKER prior) = []
           then joinNl (genBlockLines vars)
           else rstrip (removeSpans BEGIN_MARKER END_MARKER prior) ++ str "\n\n" ++
             joinNl (genBlockLines vars)) from rfl]
      rw [if_pos hc]
    refine ⟨?_, ⟨joinNl (genBlockLines vars), by rw [honce, hc, List.nil_append]⟩⟩
    rw [honce]
    rw [show update_locals_content vars (joinNl (genBlockLines vars)) =
        (if rstrip (removeSpans BEGIN_MARKER END_MARKER (joinNl (genBlockLines vars))) = []
         then joinNl (genBlockLines vars)
         else rstrip (removeSpans BEGIN_MARKER END_MARKER (joinNl (genBlockLines vars))) ++
           str "\n\n" ++ joinNl (genBlockLines vars)) from rfl]
    rw [hrsg]
    rw [show rstrip ([] : LC) = [] from rfl]
    rw [if_pos rfl]
  · have honce : update_locals_content vars prior =
        rstrip (removeSpans BEGIN_MARKER END_MARKER prior) ++ str "\n\n" ++
          joinNl (genBlockLines vars) := by
      rw [show update_locals_content vars prior =
          (if rstrip (removeSpans BEGIN_MARKER END_MARKER prior) = []
           then joinNl (genBlockLines vars)
           else rstrip (removeSpans BEGIN_MARKER END_MARKER prior) ++ str "\n\n" ++
             joinNl (genBlockLines vars)) from rfl]
      rw [if_neg hc]
    refine ⟨?_, ⟨str "\n\n" ++ joinNl (genBlockLines vars), by
      rw [honce, List.append_assoc]⟩⟩
    have hX : ∀ i, isPref BEGIN_MARKER
        ((rstrip (removeSpans BEGIN_MARKER END_MARKER prior) ++ ['\n', '\n']).drop i) =
          false := by
      have s1 := noOcc_snoc (p := BEGIN_MARKER) (c := '\n') (by decide) hnoB (by decide)
      have s2 := noOcc_snoc (p := BEGIN_MARKER) (c := '\n') (by decide) s1 (by decide)
      intro i
      have := s2 i
      rwa [List.append_assoc] at this
    have harr : rstrip (removeSpans BEGIN_MARKER END_MARKER prior) ++ str "\n\n" ++
        joinNl (genBlockLines vars) =
        (rstrip (removeSpans BEGIN_MARKER END_MARKER prior) ++ ['\n', '\n']) ++
          (BEGIN_MARKER ++ (genMid vars ++ (END_MARKER ++ ['\n']))) := by
      rw [hgen]
      rfl
    have hrs2 : removeSpans BEGIN_MARKER END_MARKER
        (rstrip (removeSpans BEGIN_MARKER END_MARKER prior) ++ str "\n\n" ++
          joinNl (genBlockLines vars)) =
        rstrip (removeSpans BEGIN_MARKER END_MARKER prior) ++ ['\n', '\n'] := by
      rw [harr]
      exact removeSpans_span _ _ hX hMfree
    have hrst : rstrip (rstrip (removeSpans BEGIN_MARKER END_MARKER prior) ++
        ['\n', '\n']) = rstrip (removeSpans BEGIN_MARKER END_MARKER prior) := by
      rw [rstrip_append_spaces ?_ _]
      · exact rstrip_idem _
      · intro c hcm
        rcases List.mem_cons.mp hcm with h | h
        · rw [h]
          rfl
        · rw [List.mem_singleton.mp h]
          rfl
    rw [honce]
    rw [show update_locals_content vars
        (rstrip (removeSpans BEGIN_MARKER END_MARKER prior) ++ str "\n\n" ++
          joinNl (genBlockLines vars)) =
        (if rstrip (removeSpans BEGIN_MARKER END_MARKER
            (rstrip (removeSpans BEGIN_MARKER END_MARKER prior) ++ str "\n\n" ++
              joinNl (genBlockLines vars))) = []
         then joinNl (genBlockLines vars)
         else rstrip (removeSpans BEGIN_MARKER END_MARKER
            (rstrip (removeSpans BEGIN_MARKER END_MARKER prior) ++ str "\n\n" ++
              joinNl (genBlockLines vars))) ++ str "\n\n" ++
           joinNl (genBlockLines vars)) from rfl]
    rw [hrs2, hrst, if_neg hc]

/-- Witness for update_locals_idempotent at a concrete file content. -/
theorem update_locals_idempotent_witness :
    (firstOcc BEGIN_MARKER
        (removeSpans BEGIN_MARKER END_MARKER (str "hello world\n")) = none ∧
     firstOcc END_MARKER
        (removeSpans BEGIN_MARKER END_MARKER (str "hello world\n")) = none ∧
     [str "zone_records_example_com"].all identifierShape = true) ∧
    (update_locals_content [str "zone_records_example_com"]
        (update_locals_content [str "zone_records_example_com"] (str "hello world\n")) =
      update_locals_content [str "zone_records_example_com"] (str "hello world\n") ∧
     ∃ t, update_locals_content [str "zone_records_example_com"] (str "hello world\n") =
       rstrip (removeSpans BEGIN_MARKER END_MARKER (str "hello world\n")) ++ t) :=
  ⟨⟨by decide, by decide, by decide⟩,
   update_locals_idempotent [str "zone_records_example_com"] (str "hello world\n")
     (by decide) (by decide) (by decide)⟩

theorem substring_decomp {p s : LC} {i : Nat} (h : isPref p (s.drop i) = true) :
    ∃ a b, s = a ++ (p ++ b) := by
  refine ⟨s.take i, (s.drop i).drop p.length, ?_⟩
  have h2 := isPref_eq_take h
  have h3 : s.drop i = p ++ (s.drop i).drop p.length := by
    conv_lhs => rw [← List.take_append_drop p.length (s.drop i)]
    rw [← h2]
  conv_lhs => rw [← List.take_append_drop i s, h3]

/-- C1 counterexample: the hand-written prior content is the two characters
q and space; after one update the trailing space has been stripped, and the
hand-written text no longer occurs anywhere in the output, so the text
outside the markers is not preserved byte-for-byte. -/
theorem update_locals_preserve_counterexample :
    ¬ ∃ a b, update_locals_content [] (str "q ") = a ++ (str "q " ++ b) := by
  rintro ⟨a, b, hab⟩
  have hocc : isPref (str "q ")
      ((update_locals_content [] (str "q ")).drop a.length) = true := by
    rw [hab, List.drop_left]
    exact isPref_append_self _ _
  have hnone : firstOcc (str "q ") (update_locals_content [] (str "q ")) = none := by
    decide
  rw [firstOcc_none_iff] at hnone
  rw [hnone a.length] at hocc
  exact Bool.noConfusion hocc
